import Mathlib

set_option linter.unusedVariables false

/-! Shallow embedding of the scalar reverse-mode autodiff engine of
`src/autodiff/__init__.py`.  Expression objects are graph nodes identified
by natural-number indices into a node list; Python object identity is index
equality.  Construction order guarantees every operand index is strictly
smaller than its parent (`WF`).  Numeric values are a parameter `V`
together with an operation table `Ops V`; the concrete claims instantiate
`V` with the exact integers (Python ints) and the exp/ln claim with the
real numbers. -/

/-- Errors raised by the engine: `VariableAssignmentError` variants,
registry errors, the unimplemented-assignment error of `Expression.set`,
plus bookkeeping constructors (`fuel` for an exhausted step budget,
`badNode` for a dangling index, `bodyError` standing for an exception
raised by the body of a `with assign(...)` block). -/
inductive Err where
  | unassigned (name : String)
  | alreadyAssigned (name : String)
  | unknownName (name : String)
  | dupName (name : String)
  | notImplemented
  | badNode
  | fuel
  | bodyError
  deriving DecidableEq

/-- One expression node, mirroring the `Expression` subclasses: `Variable`,
`AdditionExpression`, `ConstantAdditionExpression`,
`MultiplicationExpression`, `ConstantMultiplicationExpression`,
`PowerExpression`, `ExponentialExpression`, `LogExpression`,
`LogisticExpression`.  Constant payloads (`_const`, `_pow`) are stored in
the node. -/
inductive Node (V : Type) where
  | var (name : String)
  | add (l r : Nat)
  | cadd (a : Nat) (c : V)
  | mul (l r : Nat)
  | cmul (a : Nat) (c : V)
  | npow (a : Nat) (p : V)
  | nexp (a : Nat)
  | nln (a : Nat)
  | nlogistic (a : Nat)
  deriving DecidableEq

/-- Arithmetic operations of the value domain (Python numbers). -/
structure Ops (V : Type) where
  add : V → V → V
  mul : V → V → V
  sub : V → V → V
  div : V → V → V
  neg : V → V
  pow : V → V → V
  exp : V → V
  ln : V → V
  zero : V
  one : V

/-- Mutable state of the whole graph: per-node `_val` cache, per-node `_d`
Counter (`dmap i root` is node `i`'s accumulated entry for numerator
`root`; a Counter read defaults to 0), the `_assigned` flag of Variables,
and the `Variable._by_name` registry. -/
structure State (V : Type) where
  val : Nat → Option V
  dmap : Nat → Nat → Option V
  assigned : Nat → Bool
  reg : String → Option Nat

/-- `_subexps` of a node, in constructor order (which coincides with the
alphabetical `Argument` descriptor order used by `__init_subclass__`). -/
def Node.operands {V : Type} : Node V → List Nat
  | .var _ => []
  | .add l r => [l, r]
  | .cadd a _ => [a]
  | .mul l r => [l, r]
  | .cmul a _ => [a]
  | .npow a _ => [a]
  | .nexp a => [a]
  | .nln a => [a]
  | .nlogistic a => [a]

/-- `_subexps` looked up through the node list (empty for a dangling id). -/
def nodeOps {V : Type} (g : List (Node V)) (i : Nat) : List Nat :=
  match g[i]? with
  | some n => n.operands
  | none => []

/-- Well-formed graph: operands are constructed before their parents, so
operand indices are strictly smaller.  This is the acyclicity guarantee of
construction order. -/
def WF {V : Type} (g : List (Node V)) : Prop :=
  ∀ i, i < g.length → ∀ j ∈ nodeOps g i, j < i

/-- `_var_deps` of node `i`: the transitive leaf Variables it depends on,
computed exactly as `Expression.__init__` accumulates them (a direct
Variable operand contributes itself, a composite operand contributes its
own `_var_deps`).  The fuel argument bounds recursion depth; on a
well-formed graph `i + 1` fuel is exact. -/
def varDepsF {V : Type} (g : List (Node V)) : Nat → Nat → List Nat
  | 0, _ => []
  | fuel+1, i =>
    match g[i]? with
    | none => []
    | some n =>
      n.operands.foldl (fun acc c =>
        acc ++ (match g[c]? with
                | some (.var _) => [c]
                | _ => varDepsF g fuel c)) []

/-- `_var_deps` of node `i` (empty for a `Variable` itself). -/
def varDeps {V : Type} (g : List (Node V)) (i : Nat) : List Nat :=
  varDepsF g (i+1) i

/-- The transitive leaf Variables node `i` depends on, counting a Variable
as depending on itself. -/
def leafDeps {V : Type} (g : List (Node V)) (i : Nat) : List Nat :=
  match g[i]? with
  | some (.var _) => [i]
  | _ => varDeps g i

/-- Write the `_val` cache of node `i`. -/
def setVal {V : Type} (s : State V) (i : Nat) (v : V) : State V :=
  { s with val := fun j => if j = i then some v else s.val j }

/-- `node._d[root] = v` (Counter item assignment). -/
def setD {V : Type} (s : State V) (i root : Nat) (v : V) : State V :=
  { s with dmap := fun j =>
      if j = i then (fun r => if r = root then some v else s.dmap i r)
      else s.dmap j }

/-- `node._d[root]` (Counter read, defaulting to 0). -/
def dget {V : Type} (O : Ops V) (s : State V) (i root : Nat) : V :=
  (s.dmap i root).getD O.zero

/-- `node._d[root] += x` (Counter in-place addition). -/
def addD {V : Type} (O : Ops V) (s : State V) (i root : Nat) (x : V) : State V :=
  setD s i root (O.add (dget O s i root) x)

/-- Apply a unary `_calc` rule to the operand's evaluation outcome, caching
the result at node `i`; an operand exception propagates with the state it
left behind. -/
def mk1 {V : Type} (i : Nat) (f : V → V) :
    Except Err V × State V → Except Err V × State V
  | (.error e, s1) => (.error e, s1)
  | (.ok v, s1) => (.ok (f v), setVal s1 i (f v))

/-- Apply a binary `_calc` rule: evaluate the left operand, then (in the
state it produced) the right operand, cache the combined result at node
`i`; either operand's exception propagates with the state it left
behind. -/
def mk2 {V : Type} (i : Nat) (f : V → V → V) (r : Except Err V × State V)
    (k : State V → Except Err V × State V) : Except Err V × State V :=
  match r with
  | (.error e, s1) => (.error e, s1)
  | (.ok vl, s1) =>
    match k s1 with
    | (.error e, s2) => (.error e, s2)
    | (.ok vr, s2) => (.ok (f vl vr), setVal s2 i (f vl vr))

/-- The `val` property of `Expression`: return the cache if present, else
run the node's `_calc` rule on the operands' `val`s (left to right,
memoizing as it goes), cache and return the result.  An unassigned
`Variable` raises `VariableAssignmentError`.  The fuel argument bounds
recursion depth; `i + 1` fuel is enough for node `i` of a well-formed
graph. -/
def eval {V : Type} (O : Ops V) (g : List (Node V)) :
    Nat → Nat → State V → Except Err V × State V
  | 0, _, s => (.error .fuel, s)
  | fuel+1, i, s =>
    match s.val i with
    | some v => (.ok v, s)
    | none =>
      match g[i]? with
      | none => (.error .badNode, s)
      | some (.var nm) =>
        -- `Variable._calc` raises when unassigned; an assigned Variable
        -- always has its bound value in `_val`, so the other branch is
        -- unreachable in reachable states.
        if s.assigned i then (.error .badNode, s)
        else (.error (.unassigned nm), s)
      | some (.add l r) => mk2 i O.add (eval O g fuel l s) (eval O g fuel r)
      | some (.cadd a c) => mk1 i (fun v => O.add v c) (eval O g fuel a s)
      | some (.mul l r) => mk2 i O.mul (eval O g fuel l s) (eval O g fuel r)
      | some (.cmul a c) => mk1 i (fun v => O.mul v c) (eval O g fuel a s)
      | some (.npow a p) => mk1 i (fun v => O.pow v p) (eval O g fuel a s)
      | some (.nexp a) => mk1 i O.exp (eval O g fuel a s)
      | some (.nln a) => mk1 i O.ln (eval O g fuel a s)
      | some (.nlogistic a) =>
        mk1 i (fun v => O.div O.one (O.add O.one (O.exp (O.neg v))))
          (eval O g fuel a s)

/-- `Variable.set` (reached through the `val` setter): raises if the node
is not a Variable (`Expression.set`) or already assigned; otherwise stores
the value and marks the Variable assigned.  The error cases leave the
state untouched. -/
def varSet {V : Type} (g : List (Node V)) (i : Nat) (v : V) (s : State V) :
    State V × Option Err :=
  match g[i]? with
  | some (.var nm) =>
    if s.assigned i then (s, some (.alreadyAssigned nm))
    else ({ s with
            assigned := fun j => if j = i then true else s.assigned j,
            val := fun j => if j = i then some v else s.val j }, none)
  | some _ => (s, some .notImplemented)
  | none => (s, some .badNode)

/-- `unset`, dispatched on the receiver: `Variable.unset` raises if
unassigned, else clears the flag, its own cache and `_d`, and calls
`Expression.unset` on every member of its `_dependent_exps` set (exactly
the nodes whose `_var_deps` contain it); `Expression.unset` on a composite
just clears that node's cache and `_d`. -/
def unset {V : Type} (g : List (Node V)) (i : Nat) (s : State V) :
    State V × Option Err :=
  match g[i]? with
  | some (.var nm) =>
    if s.assigned i = false then (s, some (.unassigned nm))
    else
      ({ val := fun j => if j = i ∨ i ∈ varDeps g j then none else s.val j,
         dmap := fun j => if j = i ∨ i ∈ varDeps g j then (fun _ => none) else s.dmap j,
         assigned := fun j => if j = i then false else s.assigned j,
         reg := s.reg }, none)
  | some _ =>
    ({ s with
       val := fun j => if j = i then none else s.val j,
       dmap := fun j => if j = i then (fun _ => none) else s.dmap j }, none)
  | none => (s, some .badNode)

/-- Constructing a new expression object: appends the node (its operands
must already exist).  A `Variable` additionally registers its name,
rejecting duplicates (`Variable.__init__`). -/
def mkNode {V : Type} (g : List (Node V)) (n : Node V) (s : State V) :
    Except Err (List (Node V) × State V) :=
  match n with
  | .var nm =>
    match s.reg nm with
    | some _ => .error (.dupName nm)
    | none => .ok (g ++ [n],
        { s with reg := fun m => if m = nm then some g.length else s.reg m })
  | _ => .ok (g ++ [n], s)

/-- `AssignmentContext.__enter__`: bind each named Variable in order,
stopping at (and propagating) the first error; earlier bindings are kept. -/
def enterAll {V : Type} (g : List (Node V)) :
    List (String × V) → State V → State V × Option Err
  | [], s => (s, none)
  | (nm, v) :: rest, s =>
    match s.reg nm with
    | none => (s, some (.unknownName nm))
    | some i =>
      match varSet g i v s with
      | (s', some e) => (s', some e)
      | (s', none) => enterAll g rest s'

/-- `AssignmentContext.__exit__`: unbind each named Variable in order,
stopping at the first error. -/
def exitAll {V : Type} (g : List (Node V)) :
    List (String × V) → State V → State V × Option Err
  | [], s => (s, none)
  | (nm, _) :: rest, s =>
    match s.reg nm with
    | none => (s, some (.unknownName nm))
    | some i =>
      match unset g i s with
      | (s', some e) => (s', some e)
      | (s', none) => exitAll g rest s'

/-- A `with assign(...)` block: enter, run the body (an arbitrary state
transformer that reports whether it raised), then always run exit; a body
exception propagates as `bodyError` unless the exit itself raises. -/
def scopedRun {V : Type} (g : List (Node V)) (bindings : List (String × V))
    (body : State V → State V × Bool) (s0 : State V) : State V × Option Err :=
  match enterAll g bindings s0 with
  | (s1, some e) => (s1, some e)
  | (s1, none) =>
    let r := body s1
    match exitAll g bindings r.1 with
    | (s3, some e) => (s3, some e)
    | (s3, none) => (s3, if r.2 then some .bodyError else none)

/-- Insert into a Python `set` represented as a duplicate-free list. -/
def insertSet (x : Nat) (l : List Nat) : List Nat :=
  if x ∈ l then l else x :: l

/-- The DFS of `_backprop` that builds the `incoming` parent sets of the
subgraph reachable from the root.  The stack `q` and the `visited` set are
as in the source; fuel bounds the number of loop iterations. -/
def dfsVisit {V : Type} (g : List (Node V)) :
    Nat → List Nat → List Nat → (Nat → List Nat) → (Nat → List Nat) × List Nat
  | 0, _, visited, inc => (inc, visited)
  | _+1, [], visited, inc => (inc, visited)
  | fuel+1, curr :: q, visited, inc =>
    let st := (nodeOps g curr).foldl (fun st e =>
      let inc' := fun j => if j = e then insertSet curr (st.2.2 e) else st.2.2 j
      if e ∈ st.2.1 then (st.1, st.2.1, inc')
      else (e :: st.1, e :: st.2.1, inc')) (q, visited, inc)
    dfsVisit g fuel st.1 st.2.1 st.2.2

/-- The Kahn loop of `_backprop`: pop a free node, append it to the order,
discard it from each operand's incoming set and push any operand whose
incoming set is (or already was) empty.  This is the faithful translation,
including the re-push that happens when the same node fills two operand
slots of its parent. -/
def kahn {V : Type} (g : List (Node V)) :
    Nat → List Nat → (Nat → List Nat) → List Nat → List Nat × (Nat → List Nat)
  | 0, _, inc, order => (order, inc)
  | _+1, [], inc, order => (order, inc)
  | fuel+1, curr :: free, inc, order =>
    let st := (nodeOps g curr).foldl (fun st nbr =>
      let l := (st.2 nbr).erase curr
      let inc' := fun j => if j = nbr then l else st.2 j
      if l.isEmpty then (nbr :: st.1, inc') else (st.1, inc')) (free, inc)
    kahn g fuel st.1 st.2 (order ++ [curr])

/-- `node._deriv(root)` for one node of the topological order: for each
operand slot, add `self._d[root] * local-derivative` to that operand's
`_d[root]`.  The local rules are the `Argument.derivative` functions of
each class; the ones of multiplication, power, exp, ln and logistic force
operand (or own) values through `val`, which can itself raise and
memoize.  `Variable._deriv` is a no-op. -/
def evalThen {V : Type} (r : Except Err V × State V)
    (k : V → State V → State V × Option Err) : State V × Option Err :=
  match r with
  | (.error e, s1) => (s1, some e)
  | (.ok v, s1) => k v s1

def derivStep {V : Type} (O : Ops V) (g : List (Node V)) (fuel : Nat)
    (i root : Nat) (s : State V) : State V × Option Err :=
  match g[i]? with
  | none => (s, none)
  | some (.var _) => (s, none)
  | some (.add l r) =>
    let s1 := addD O s l root (O.mul (dget O s i root) O.one)
    (addD O s1 r root (O.mul (dget O s1 i root) O.one), none)
  | some (.cadd a _) =>
    (addD O s a root (O.mul (dget O s i root) O.one), none)
  | some (.mul l r) =>
    let di := dget O s i root
    evalThen (eval O g fuel r s) (fun vr s1 =>
      let s2 := addD O s1 l root (O.mul di vr)
      let di2 := dget O s2 i root
      evalThen (eval O g fuel l s2) (fun vl s3 =>
        (addD O s3 r root (O.mul di2 vl), none)))
  | some (.cmul a c) =>
    (addD O s a root (O.mul (dget O s i root) c), none)
  | some (.npow a p) =>
    let di := dget O s i root
    evalThen (eval O g fuel a s) (fun v s1 =>
      (addD O s1 a root (O.mul di (O.mul p (O.pow v (O.sub p O.one)))), none))
  | some (.nexp a) =>
    let di := dget O s i root
    evalThen (eval O g fuel i s) (fun vi s1 =>
      (addD O s1 a root (O.mul di vi), none))
  | some (.nln a) =>
    let di := dget O s i root
    evalThen (eval O g fuel a s) (fun v s1 =>
      (addD O s1 a root (O.mul di (O.div O.one v)), none))
  | some (.nlogistic a) =>
    let di := dget O s i root
    evalThen (eval O g fuel i s) (fun vi s1 =>
      (addD O s1 a root (O.mul di (O.mul vi (O.sub O.one vi))), none))

/-- The accumulation loop of `_backprop` over the topological order; an
exception aborts the loop, keeping all mutations made so far. -/
def derivLoop {V : Type} (O : Ops V) (g : List (Node V)) (fuel root : Nat) :
    List Nat → State V → State V × Option Err
  | [], s => (s, none)
  | i :: rest, s =>
    match derivStep O g fuel i root s with
    | (s', some e) => (s', some e)
    | (s', none) => derivLoop O g fuel root rest s'

/-- `Expression._backprop`: short-circuit if this root already has an entry
for itself in its own `_d`; otherwise build `incoming` by DFS, compute the
order with the Kahn loop, seed `self._d[self] = 1` and run `_deriv` over
the order. -/
def backprop {V : Type} (O : Ops V) (g : List (Node V)) (fuel root : Nat)
    (s : State V) : State V × Option Err :=
  if (s.dmap root root).isSome then (s, none)
  else
    let inc := (dfsVisit g fuel [root] [] (fun _ => [])).1
    let order := (kahn g fuel [root] inc []).1
    derivLoop O g fuel root order (setD s root root O.one)

/-- `DerivativeView.val` for `d(num, den)`: run backprop rooted at the
numerator, then read `den._d[num]` (0 when absent). -/
def derivRead {V : Type} (O : Ops V) (g : List (Node V)) (fuel num den : Nat)
    (s : State V) : Except Err V × State V :=
  match backprop O g fuel num s with
  | (s', some e) => (.error e, s')
  | (s', none) => (.ok (dget O s' den num), s')

/-- Exact-integer operations: Python's arbitrary-precision ints under
`+`/`*`/`-`; the transcendental slots are never exercised by the integer
claims. -/
def intOps : Ops ℤ where
  add := fun a b => a + b
  mul := fun a b => a * b
  sub := fun a b => a - b
  div := fun a b => a / b
  neg := fun a => -a
  pow := fun _ _ => 0
  exp := fun _ => 0
  ln := fun _ => 0
  zero := 0
  one := 1

/-- Real-number operations, the idealisation of Python floats used for the
exp/ln round-trip claim. -/
noncomputable def realOps : Ops ℝ where
  add := fun a b => a + b
  mul := fun a b => a * b
  sub := fun a b => a - b
  div := fun a b => a / b
  neg := fun a => -a
  pow := fun a b => Real.rpow a b
  exp := Real.exp
  ln := Real.log
  zero := 0
  one := 1

/-- A state with no caches, no derivative entries, no assignments and an
explicitly given registry. -/
def freshState {V : Type} (reg : String → Option Nat) : State V :=
  { val := fun _ => none
    dmap := fun _ _ => none
    assigned := fun _ => false
    reg := reg }

instance {V : Type} (g : List (Node V)) : Decidable (WF g) :=
  inferInstanceAs (Decidable (∀ i, i < g.length → ∀ j ∈ nodeOps g i, j < i))

/-! ### C1: the graph `z = s * s` with `s = x + y` shared in both operand slots -/

/-- Node 0 = `x`, node 1 = `y`, node 2 = `s = x + y`, node 3 = `z = s * s`
(the same object `s` in both operand slots of `z`). -/
def gC1 : List (Node ℤ) := [.var "x", .var "y", .add 0 1, .mul 2 2]

/-- Binding `x = 3`, `y = 5`; fresh caches. -/
def sC1 : State ℤ :=
  { val := fun j => if j = 0 then some 3 else if j = 1 then some 5 else none
    dmap := fun _ _ => none
    assigned := fun j => j == 0 || j == 1
    reg := fun _ => none }

/-! ### C2: derivative reads with unbound variables -/

/-- Node 0 = `x`, node 1 = `y`, node 2 = `x + y`. -/
def gC2 : List (Node ℤ) := [.var "x", .var "y", .add 0 1]

/-- Node 0 = `x`, node 1 = `y`, node 2 = `x * y`. -/
def gC2m : List (Node ℤ) := [.var "x", .var "y", .mul 0 1]

/-- The completely unbound state. -/
def sC2 : State ℤ := freshState (fun _ => none)

/-! ### C4: a failed derivative read mutates the cache state -/

/-- Node 0 = `x`, node 1 = `y`, node 2 = `z = x * y`. -/
def gC4 : List (Node ℤ) := [.var "x", .var "y", .mul 0 1]

/-- The completely unbound state. -/
def sC4 : State ℤ := freshState (fun _ => none)

/-- The state after the failed read of `d(z, x)` on unbound variables. -/
def sC4f : State ℤ := (derivRead intOps gC4 10 2 0 sC4).2

/-- The state after subsequently binding `x = 3`, `y = 4`. -/
def sC4b : State ℤ := (varSet gC4 1 4 (varSet gC4 0 3 sC4f).1).1

/-! ### C7: product rule on concrete inputs -/

/-- Node 0 = `x`, node 1 = `y`, node 2 = `z = x * y`. -/
def gC7 : List (Node ℤ) := [.var "x", .var "y", .mul 0 1]

/-- Binding `x = 3`, `y = 4`; fresh caches. -/
def sC7 : State ℤ :=
  { val := fun j => if j = 0 then some 3 else if j = 1 then some 4 else none
    dmap := fun _ _ => none
    assigned := fun j => j == 0 || j == 1
    reg := fun _ => none }

/-- The state after reading `value(z)`. -/
def sC7v : State ℤ := (eval intOps gC7 10 2 sC7).2

/-- The state after additionally reading `d(z, x)`. -/
def sC7x : State ℤ := (derivRead intOps gC7 10 2 0 sC7v).2

/-- Effects any number of `val`-cache writes can have on the state: the
derivative maps, assignment flags and registry are untouched and cached
values are never erased. -/
def EvalFrame {V : Type} (s s' : State V) : Prop :=
  s'.dmap = s.dmap ∧ s'.assigned = s.assigned ∧ s'.reg = s.reg ∧
    ∀ j w, s.val j = some w → s'.val j = some w

/-- `Reach g i j`: node `j` is in the subgraph reachable from `i` along
operand edges (the induced subgraph of the backprop pass). -/
inductive Reach {V : Type} (g : List (Node V)) : Nat → Nat → Prop where
  | refl (i : Nat) : Reach g i i
  | step {i j k : Nat} (n : Node V) :
      Reach g i j → g[j]? = some n → k ∈ n.operands → Reach g i k

/-- All cache writes between two states lie at composite nodes reachable
from `i`. -/
def ValWrites {V : Type} (g : List (Node V)) (i : Nat) (s s' : State V) : Prop :=
  ∀ j, s'.val j ≠ s.val j →
    Reach g i j ∧ ∃ n, g[j]? = some n ∧ ∀ nm, n ≠ Node.var nm

/-- The spec's cache invariant: a node's cached value is present only if
every transitive leaf Variable it depends on is currently assigned. -/
def CacheInv {V : Type} (g : List (Node V)) (s : State V) : Prop :=
  ∀ i, i < g.length → (s.val i).isSome = true →
    ∀ u ∈ leafDeps g i, s.assigned u = true

instance {V : Type} (g : List (Node V)) (s : State V) : Decidable (CacheInv g s) :=
  inferInstanceAs (Decidable (∀ i, i < g.length → (s.val i).isSome = true →
    ∀ u ∈ leafDeps g i, s.assigned u = true))

/-- Effects a `_deriv` step at node `i` can have: flags, registry untouched;
`val` caches only grow (by the `val` forcing in local rules); `_d` entries
are never removed; and no `_d` row at a node index `≥ i` is touched (the
step writes only operand rows, which lie strictly below `i` on a
well-formed graph). -/
def StepFrame {V : Type} (i : Nat) (s s' : State V) : Prop :=
  s'.assigned = s.assigned ∧ s'.reg = s.reg ∧
  (∀ j w, s.val j = some w → s'.val j = some w) ∧
  (∀ j r, (s.dmap j r).isSome = true → (s'.dmap j r).isSome = true) ∧
  (∀ j r, i ≤ j → s'.dmap j r = s.dmap j r)

/-- All leaf Variables any node of the graph depends on are assigned and
carry their bound values (the state after a full `assign`). -/
def Ready {V : Type} (g : List (Node V)) (s : State V) : Prop :=
  ∀ i, i < g.length → ∀ u ∈ leafDeps g i,
    s.assigned u = true ∧ (s.val u).isSome = true

instance {V : Type} (g : List (Node V)) (s : State V) : Decidable (Ready g s) :=
  inferInstanceAs (Decidable (∀ i, i < g.length → ∀ u ∈ leafDeps g i,
    s.assigned u = true ∧ (s.val u).isSome = true))

/-- The graph `z = x * y` with `x` assigned and `y` unbound. -/
def gC3 : List (Node ℤ) := [.var "x", .var "y", .mul 0 1]

/-- A mid-session state: `x = 3` bound, `y` unbound, no caches. -/
def sC3 : State ℤ :=
  { val := fun j => if j = 0 then some 3 else none
    dmap := fun _ _ => none
    assigned := fun j => j == 0
    reg := fun _ => none }

/-- The graph `s = x + y` over two registered Variables. -/
def gC5 : List (Node ℤ) := [.var "x", .var "y", .add 0 1]

/-- The registry of `gC5`. -/
def regC5 : String → Option Nat :=
  fun nm => if nm = "x" then some 0 else if nm = "y" then some 1 else none

/-- The unbound starting state with both Variables registered. -/
def sC5 : State ℤ := freshState regC5

/-- The bindings of the scope: `assign(x=3, y=4)`. -/
def bindC5 : List (String × ℤ) := [("x", 3), ("y", 4)]

/-- A body that raises (leaving the state as entered). -/
def bodyC5 : State ℤ → State ℤ × Bool := fun st => (st, true)

/-- The state right after the scope's enter. -/
def s1C5 : State ℤ := (enterAll gC5 bindC5 sC5).1

/-- The graph `z = x * y`. -/
def gC6 : List (Node ℤ) := [.var "x", .var "y", .mul 0 1]

/-- Binding `x = 3, y = 4`, no caches. -/
def sC6 : State ℤ :=
  { val := fun j => if j = 0 then some 3 else if j = 1 then some 4 else none
    dmap := fun _ _ => none
    assigned := fun j => j == 0 || j == 1
    reg := fun _ => none }

/-- The graph `z = x * y`. -/
def gC8 : List (Node ℤ) := [.var "x", .var "y", .mul 0 1]

/-- Binding `x = 3, y = 4`, no caches. -/
def sC8 : State ℤ :=
  { val := fun j => if j = 0 then some 3 else if j = 1 then some 4 else none
    dmap := fun _ _ => none
    assigned := fun j => j == 0 || j == 1
    reg := fun _ => none }

/-- The state after the first read `d(z, x)`. -/
def sC8p : State ℤ := (derivRead intOps gC8 10 2 0 sC8).2

/-! ### C9: the exp/ln round trip returns the bound value -/

/-- The graph `exp(ln(x))` over the real numbers (the idealisation of
Python floats). -/
def gC9 : List (Node ℝ) := [.var "x", .nln 0, .nexp 1]

/-- `x` bound to a given real, no other caches. -/
def sC9 (x : ℝ) : State ℝ :=
  { val := fun j => if j = 0 then some x else none
    dmap := fun _ _ => none
    assigned := fun j => j == 0
    reg := fun _ => none }

/-- C1: the claim fails on the code.  With `z = s*s` for the non-leaf
`s = x + y` under `x = 3, y = 5`, the traversal emits the shared node `s`
(index 2) twice in the processing order (not exactly once), and the
backprop pass stores `d z / d x = 32` although the chain rule gives
`2 * (x + y) * 1 = 16`: the parent-set representation of incoming edges
collapses the two parallel edges `z → s`, so the Kahn loop re-appends `s`
once its incoming set is empty and `s._deriv` distributes its accumulated
partial to `x` and `y` twice. -/
theorem c1_duplicate_operand_bug :
    ((kahn gC1 20 [3] (dfsVisit gC1 20 [3] [] (fun _ => [])).1 []).1).count 2 = 2 ∧
    (derivRead intOps gC1 20 3 0 sC1).1 = .ok 32 ∧ (32 : ℤ) ≠ 2 * (3 + 5) * 1 :=
  ⟨by decide, by rfl, by decide⟩

/-- C2 counterexample: with `x` and `y` both unbound, reading
`d(x + y, x)` does not raise the unassigned-variable error — it returns 1,
because `_backprop` never forces `numerator.value()` and the local
derivative rule of addition is the constant 1. -/
theorem c2_counterexample :
    sC2.assigned 0 = false ∧ sC2.assigned 1 = false ∧
    (derivRead intOps gC2 10 2 0 sC2).1 = .ok 1 :=
  ⟨rfl, rfl, by rfl⟩

/-- C2 amended: a derivative read raises the unassigned-variable error only
when a local-derivative rule evaluated during the pass forces an unbound
Variable's value; `d(x + y, x)` with `x, y` unbound succeeds and returns
the structural derivative 1, while `d(x * y, x)` with `x, y` unbound does
raise, since multiplication's local rule forces the opposite factor. -/
theorem c2_amended_constant_rules :
    (derivRead intOps gC2 10 2 0 sC2).1 = .ok 1 ∧
    (derivRead intOps gC2m 10 2 0 sC2).1 = .error (.unassigned "y") :=
  ⟨by rfl, by rfl⟩

/-- C4: the claim fails on the code.  Reading `d(z, x)` for `z = x * y`
with `x, y` unbound raises the unassigned-variable error, but the failed
read changes the graph's cache state: it leaves `z._d[z] = 1` behind
(`none` before, `some 1` after).  The residue is harmful: after binding
`x = 3, y = 4`, the re-query short-circuits on the stale entry and returns
0 instead of 4. -/
theorem c4_failed_read_not_atomic :
    (derivRead intOps gC4 10 2 0 sC4).1 = .error (.unassigned "y") ∧
    sC4.dmap 2 2 = none ∧ sC4f.dmap 2 2 = some 1 ∧
    (derivRead intOps gC4 10 2 0 sC4b).1 = .ok 0 ∧ (0 : ℤ) ≠ 4 :=
  ⟨by rfl, rfl, by rfl, by rfl, by decide⟩

/-- C7: for `z = x * y` under `x = 3, y = 4` (exact integers),
`value(z) = 12`, then `d(z, x) = 4`, then `d(z, y) = 3`, reading them in
sequence on the evolving cache state. -/
theorem c7_product_rule :
    (eval intOps gC7 10 2 sC7).1 = .ok 12 ∧
    (derivRead intOps gC7 10 2 0 sC7v).1 = .ok 4 ∧
    (derivRead intOps gC7 10 2 1 sC7x).1 = .ok 3 :=
  ⟨by rfl, by rfl, by rfl⟩
-- Batch 1: setVal/setD simp lemmas, EvalFrame, Reach, eval frame lemmas

theorem setVal_dmap {V : Type} (s : State V) (i : Nat) (v : V) :
    (setVal s i v).dmap = s.dmap := rfl

theorem setVal_assigned {V : Type} (s : State V) (i : Nat) (v : V) :
    (setVal s i v).assigned = s.assigned := rfl

theorem setVal_reg {V : Type} (s : State V) (i : Nat) (v : V) :
    (setVal s i v).reg = s.reg := rfl

theorem setVal_val {V : Type} (s : State V) (i j : Nat) (v : V) :
    (setVal s i v).val j = if j = i then some v else s.val j := rfl

theorem setD_val {V : Type} (s : State V) (i root : Nat) (v : V) :
    (setD s i root v).val = s.val := rfl

theorem setD_assigned {V : Type} (s : State V) (i root : Nat) (v : V) :
    (setD s i root v).assigned = s.assigned := rfl

theorem setD_reg {V : Type} (s : State V) (i root : Nat) (v : V) :
    (setD s i root v).reg = s.reg := rfl

theorem setD_dmap {V : Type} (s : State V) (i root j r : Nat) (v : V) :
    (setD s i root v).dmap j r =
      if j = i then (if r = root then some v else s.dmap i r) else s.dmap j r := by
  simp only [setD]
  by_cases h : j = i <;> simp [h]

theorem addD_dmap {V : Type} (O : Ops V) (s : State V) (i root j r : Nat) (x : V) :
    (addD O s i root x).dmap j r =
      if j = i then (if r = root then some (O.add (dget O s i root) x) else s.dmap i r)
      else s.dmap j r := by
  simp only [addD, setD_dmap]

theorem evalFrame_refl {V : Type} (s : State V) : EvalFrame s s :=
  ⟨rfl, rfl, rfl, fun _ _ h => h⟩

theorem evalFrame_trans {V : Type} {s1 s2 s3 : State V}
    (h1 : EvalFrame s1 s2) (h2 : EvalFrame s2 s3) : EvalFrame s1 s3 :=
  ⟨h2.1.trans h1.1, h2.2.1.trans h1.2.1, h2.2.2.1.trans h1.2.2.1,
    fun j w h => h2.2.2.2 j w (h1.2.2.2 j w h)⟩

theorem evalFrame_setVal {V : Type} {s s2 : State V} {i : Nat} {v : V}
    (hnone : s.val i = none) (h : EvalFrame s s2) :
    EvalFrame s (setVal s2 i v) := by
  refine ⟨h.1, h.2.1, h.2.2.1, fun j w hw => ?_⟩
  rw [setVal_val]
  have hji : j ≠ i := by
    intro hji; rw [hji, hnone] at hw; exact Option.noConfusion hw
  rw [if_neg hji]
  exact h.2.2.2 j w hw

theorem mk1_frame {V : Type} {s : State V} {i : Nat} {f : V → V}
    {p : Except Err V × State V} (hnone : s.val i = none)
    (hp : EvalFrame s p.2) : EvalFrame s (mk1 i f p).2 := by
  rcases p with ⟨r, s1⟩
  cases r with
  | error e => exact hp
  | ok v => exact evalFrame_setVal hnone hp

theorem mk2_frame {V : Type} {s : State V} {i : Nat} {f : V → V → V}
    {p : Except Err V × State V} {k : State V → Except Err V × State V}
    (hnone : s.val i = none) (hp : EvalFrame s p.2)
    (hk : ∀ s1, EvalFrame s1 (k s1).2) : EvalFrame s (mk2 i f p k).2 := by
  rcases p with ⟨r, s1⟩
  cases r with
  | error e => exact hp
  | ok v =>
    have hk1 : EvalFrame s (k s1).2 := evalFrame_trans hp (hk s1)
    simp only [mk2]
    split
    · rename_i e s2 heq
      rw [show s2 = (k s1).2 from by rw [heq]]
      exact hk1
    · rename_i vr s2 heq
      rw [show s2 = (k s1).2 from by rw [heq]]
      exact evalFrame_setVal hnone hk1

/-- Evaluation touches nothing but `val` caches, and only adds to them. -/
theorem eval_frame {V : Type} (O : Ops V) (g : List (Node V)) :
    ∀ fuel i s, EvalFrame s (eval O g fuel i s).2 := by
  intro fuel
  induction fuel with
  | zero => intro i s; exact evalFrame_refl s
  | succ fuel ih =>
    intro i s
    rw [eval]
    split
    · exact evalFrame_refl s
    rename_i hnone
    split
    · exact evalFrame_refl s
    · split <;> exact evalFrame_refl s
    · exact mk2_frame hnone (ih _ s) (fun s1 => ih _ s1)
    · exact mk1_frame hnone (ih _ s)
    · exact mk2_frame hnone (ih _ s) (fun s1 => ih _ s1)
    · exact mk1_frame hnone (ih _ s)
    · exact mk1_frame hnone (ih _ s)
    · exact mk1_frame hnone (ih _ s)
    · exact mk1_frame hnone (ih _ s)
    · exact mk1_frame hnone (ih _ s)
-- Batch 2: Reach, ValWrites, eval writes only reachable composite caches

theorem Reach.trans {V : Type} {g : List (Node V)} {i j k : Nat}
    (h1 : Reach g i j) (h2 : Reach g j k) : Reach g i k := by
  induction h2 with
  | refl => exact h1
  | step n hjk hg hm ih => exact .step n ih hg hm

theorem reach_child {V : Type} {g : List (Node V)} {i c : Nat} {n : Node V}
    (hg : g[i]? = some n) (hm : c ∈ n.operands) : Reach g i c :=
  .step n (.refl i) hg hm

theorem valWrites_refl {V : Type} (g : List (Node V)) (i : Nat) (s : State V) :
    ValWrites g i s s := fun _ h => absurd rfl h

theorem mk1_writes {V : Type} {g : List (Node V)} {s : State V} {i a : Nat}
    {n : Node V} {f : V → V} {p : Except Err V × State V}
    (hg : g[i]? = some n) (hvar : ∀ nm, n ≠ Node.var nm) (ha : a ∈ n.operands)
    (hp : ValWrites g a s p.2) : ValWrites g i s (mk1 i f p).2 := by
  rcases p with ⟨r, s1⟩
  cases r with
  | error e =>
    intro j hj
    rcases hp j hj with ⟨hr, hc⟩
    exact ⟨(reach_child hg ha).trans hr, hc⟩
  | ok v =>
    intro j hj
    by_cases hji : j = i
    · subst hji
      exact ⟨.refl j, n, hg, hvar⟩
    · have : s1.val j ≠ s.val j := by
        simpa [mk1, setVal_val, hji] using hj
      rcases hp j this with ⟨hr, hc⟩
      exact ⟨(reach_child hg ha).trans hr, hc⟩

theorem mk2_writes {V : Type} {g : List (Node V)} {s : State V} {i l r : Nat}
    {n : Node V} {f : V → V → V} {p : Except Err V × State V}
    {k : State V → Except Err V × State V}
    (hg : g[i]? = some n) (hvar : ∀ nm, n ≠ Node.var nm)
    (hl : l ∈ n.operands) (hr : r ∈ n.operands)
    (hp : ValWrites g l s p.2) (hk : ∀ s1, ValWrites g r s1 (k s1).2) :
    ValWrites g i s (mk2 i f p k).2 := by
  rcases p with ⟨rr, s1⟩
  cases rr with
  | error e =>
    intro j hj
    rcases hp j hj with ⟨hre, hc⟩
    exact ⟨(reach_child hg hl).trans hre, hc⟩
  | ok v =>
    have hstep : ∀ j, (k s1).2.val j ≠ s.val j →
        Reach g i j ∧ ∃ m, g[j]? = some m ∧ ∀ nm, m ≠ Node.var nm := by
      intro j hj
      by_cases h2 : (k s1).2.val j = s1.val j
      · rw [h2] at hj
        rcases hp j hj with ⟨hre, hc⟩
        exact ⟨(reach_child hg hl).trans hre, hc⟩
      · rcases hk s1 j h2 with ⟨hre, hc⟩
        exact ⟨(reach_child hg hr).trans hre, hc⟩
    simp only [mk2]
    split
    · rename_i e s2 heq
      intro j hj
      rw [show s2 = (k s1).2 from by rw [heq]] at hj
      exact hstep j hj
    · rename_i vr s2 heq
      intro j hj
      by_cases hji : j = i
      · subst hji
        exact ⟨.refl j, n, hg, hvar⟩
      · rw [show s2 = (k s1).2 from by rw [heq]] at hj
        rw [setVal_val, if_neg hji] at hj
        exact hstep j hj

/-- Evaluation rooted at `i` writes `val` caches only at composite nodes
reachable from `i`. -/
theorem eval_writes {V : Type} (O : Ops V) (g : List (Node V)) :
    ∀ fuel i s, ValWrites g i s (eval O g fuel i s).2 := by
  intro fuel
  induction fuel with
  | zero => intro i s; exact valWrites_refl g i s
  | succ fuel ih =>
    intro i s
    rw [eval]
    split
    · exact valWrites_refl g i s
    rename_i hnone
    split
    · exact valWrites_refl g i s
    · split <;> exact valWrites_refl g i s
    · rename_i hg
      exact mk2_writes hg (fun nm h => Node.noConfusion h)
        (by simp [Node.operands]) (by simp [Node.operands]) (ih _ s) (fun s1 => ih _ s1)
    · rename_i hg
      exact mk1_writes hg (fun nm h => Node.noConfusion h)
        (by simp [Node.operands]) (ih _ s)
    · rename_i hg
      exact mk2_writes hg (fun nm h => Node.noConfusion h)
        (by simp [Node.operands]) (by simp [Node.operands]) (ih _ s) (fun s1 => ih _ s1)
    · rename_i hg
      exact mk1_writes hg (fun nm h => Node.noConfusion h)
        (by simp [Node.operands]) (ih _ s)
    · rename_i hg
      exact mk1_writes hg (fun nm h => Node.noConfusion h)
        (by simp [Node.operands]) (ih _ s)
    · rename_i hg
      exact mk1_writes hg (fun nm h => Node.noConfusion h)
        (by simp [Node.operands]) (ih _ s)
    · rename_i hg
      exact mk1_writes hg (fun nm h => Node.noConfusion h)
        (by simp [Node.operands]) (ih _ s)
    · rename_i hg
      exact mk1_writes hg (fun nm h => Node.noConfusion h)
        (by simp [Node.operands]) (ih _ s)
-- Batch 3: leaf-dependency lemmas and the cache invariant

theorem foldl_ext' {α β : Type} (f f' : β → α → β) (l : List α)
    (h : ∀ b a, a ∈ l → f b a = f' b a) : ∀ b, l.foldl f b = l.foldl f' b := by
  induction l with
  | nil => intro b; rfl
  | cons a l ih =>
    intro b
    rw [List.foldl_cons, List.foldl_cons, h b a (List.mem_cons_self a l)]
    exact ih (fun b x hx => h b x (List.mem_cons_of_mem a hx)) _

theorem foldl_append_eq {α β : Type} (F : α → List β) (l : List α) :
    ∀ init, l.foldl (fun acc c => acc ++ F c) init = init ++ l.flatMap F := by
  induction l with
  | nil => intro init; simp
  | cons a l ih =>
    intro init
    rw [List.foldl_cons, ih, List.flatMap_cons, List.append_assoc]

theorem flatMap_ext {α β : Type} {F F' : α → List β} :
    ∀ l : List α, (∀ c ∈ l, F c = F' c) → l.flatMap F = l.flatMap F' := by
  intro l
  induction l with
  | nil => intro h; rfl
  | cons a l ih =>
    intro h
    rw [List.flatMap_cons, List.flatMap_cons, h a (List.mem_cons_self a l),
      ih (fun c hc => h c (List.mem_cons_of_mem a hc))]

theorem getElem?_lt_len {V : Type} {g : List (Node V)} {i : Nat} {n : Node V}
    (hg : g[i]? = some n) : i < g.length := by
  by_contra h
  rw [List.getElem?_eq_none (by omega)] at hg
  exact Option.noConfusion hg

theorem nodeOps_eq {V : Type} {g : List (Node V)} {i : Nat} {n : Node V}
    (hg : g[i]? = some n) : nodeOps g i = n.operands := by
  unfold nodeOps; rw [hg]

theorem wf_operand_lt {V : Type} {g : List (Node V)} (hwf : WF g) {i c : Nat}
    {n : Node V} (hg : g[i]? = some n) (hc : c ∈ n.operands) : c < i :=
  hwf i (getElem?_lt_len hg) c (by rw [nodeOps_eq hg]; exact hc)

theorem varDepsF_stable {V : Type} {g : List (Node V)} (hwf : WF g) :
    ∀ i fuel, i + 1 ≤ fuel → varDepsF g fuel i = varDeps g i := by
  intro i
  induction i using Nat.strong_induction_on with
  | _ i ih =>
    intro fuel hfuel
    obtain ⟨f, rfl⟩ : ∃ f, fuel = f + 1 := ⟨fuel - 1, by omega⟩
    rw [varDeps, varDepsF, varDepsF]
    cases hg : g[i]? with
    | none => rfl
    | some n =>
      refine foldl_ext' _ _ _ (fun b c hc => ?_) []
      have hci : c < i := wf_operand_lt hwf hg hc
      cases hgc : g[c]? with
      | none =>
        show b ++ varDepsF g f c = b ++ varDepsF g i c
        rw [ih c hci f (by omega), ih c hci i (by omega)]
      | some m =>
        cases m
        case var nm => rfl
        all_goals show b ++ varDepsF g f c = b ++ varDepsF g i c
        all_goals rw [ih c hci f (by omega), ih c hci i (by omega)]

theorem leafDeps_none {V : Type} {g : List (Node V)} {i : Nat}
    (hg : g[i]? = none) : leafDeps g i = [] := by
  unfold leafDeps varDeps
  rw [hg, varDepsF, hg]

theorem leafDeps_var {V : Type} {g : List (Node V)} {i : Nat} {nm : String}
    (hg : g[i]? = some (.var nm)) : leafDeps g i = [i] := by
  unfold leafDeps; rw [hg]

theorem leafDeps_comp {V : Type} {g : List (Node V)} {i : Nat} {n : Node V}
    (hg : g[i]? = some n) (hnv : ∀ nm, n ≠ .var nm) :
    leafDeps g i = varDeps g i := by
  unfold leafDeps
  rw [hg]
  cases n
  case var nm => exact absurd rfl (hnv nm)
  all_goals rfl

/-- On a well-formed graph, the `_var_deps` of a composite node are the
concatenation of the leaf dependencies of its operands, exactly as
`Expression.__init__` accumulates them. -/
theorem varDeps_flat {V : Type} {g : List (Node V)} (hwf : WF g) {i : Nat}
    {n : Node V} (hg : g[i]? = some n) :
    varDeps g i = n.operands.flatMap (leafDeps g) := by
  rw [varDeps, varDepsF, hg]
  show n.operands.foldl (fun acc c =>
      acc ++ (match g[c]? with
              | some (.var _) => [c]
              | _ => varDepsF g i c)) []
    = n.operands.flatMap (leafDeps g)
  rw [foldl_append_eq, List.nil_append]
  refine flatMap_ext _ (fun c hc => ?_)
  have hci : c < i := wf_operand_lt hwf hg hc
  cases hgc : g[c]? with
  | none =>
    show varDepsF g i c = leafDeps g c
    rw [varDepsF_stable hwf c i (by omega), varDeps]
    unfold leafDeps varDeps
    rw [hgc]
  | some m =>
    cases m
    case var nm => rw [leafDeps_var hgc]
    all_goals show varDepsF g i c = leafDeps g c
    all_goals rw [varDepsF_stable hwf c i (by omega),
      leafDeps_comp hgc (fun nm h => Node.noConfusion h)]

theorem mem_leafDeps_comp {V : Type} {g : List (Node V)} (hwf : WF g)
    {i : Nat} {n : Node V} (hg : g[i]? = some n) (hnv : ∀ nm, n ≠ .var nm)
    (u : Nat) : u ∈ leafDeps g i ↔ ∃ c ∈ n.operands, u ∈ leafDeps g c := by
  rw [leafDeps_comp hg hnv, varDeps_flat hwf hg]
  simp [List.mem_flatMap]
-- Batch 4: the C3 invariant and its preservation by evaluation

theorem mk1_inv {V : Type} {g : List (Node V)} (hwf : WF g) {s : State V}
    {i a : Nat} {n : Node V} {f : V → V} {p : Except Err V × State V}
    (hg : g[i]? = some n) (hnv : ∀ nm, n ≠ .var nm) (hops : n.operands = [a])
    (hframe : EvalFrame s p.2) (hinv : CacheInv g p.2)
    (hok : ∀ v, p.1 = .ok v → ∀ u ∈ leafDeps g a, s.assigned u = true) :
    CacheInv g (mk1 i f p).2 ∧
      (∀ v, (mk1 i f p).1 = .ok v → ∀ u ∈ leafDeps g i, s.assigned u = true) := by
  have hleaf : ∀ u ∈ leafDeps g i, u ∈ leafDeps g a := by
    intro u hu
    rcases (mem_leafDeps_comp hwf hg hnv u).1 hu with ⟨c, hc, hu'⟩
    rw [hops] at hc
    rcases List.mem_singleton.1 hc with rfl
    exact hu'
  rcases p with ⟨r, s1⟩
  cases r with
  | error e => exact ⟨hinv, fun v hv => Except.noConfusion hv⟩
  | ok v =>
    have hframe1 : EvalFrame s s1 := hframe
    have hinv1 : CacheInv g s1 := hinv
    have hassigned : ∀ u ∈ leafDeps g i, s.assigned u = true := by
      intro u hu
      exact hok v rfl u (hleaf u hu)
    refine ⟨?_, fun v' _ => hassigned⟩
    intro j hj hsome u hu
    have hsome' : ((setVal s1 i (f v)).val j).isSome = true := hsome
    show (setVal s1 i (f v)).assigned u = true
    rw [setVal_assigned, hframe1.2.1]
    by_cases hji : j = i
    · subst hji
      exact hassigned u hu
    · rw [show (setVal s1 i (f v)).val j = s1.val j from by
        rw [setVal_val, if_neg hji]] at hsome'
      have := hinv1 j hj hsome' u hu
      rwa [hframe1.2.1] at this

theorem mk2_inv {V : Type} {g : List (Node V)} (hwf : WF g) {s : State V}
    {i l r : Nat} {n : Node V} {f : V → V → V} {p : Except Err V × State V}
    {k : State V → Except Err V × State V}
    (hg : g[i]? = some n) (hnv : ∀ nm, n ≠ .var nm) (hops : n.operands = [l, r])
    (hframe : EvalFrame s p.2) (hinv : CacheInv g p.2)
    (hok : ∀ v, p.1 = .ok v → ∀ u ∈ leafDeps g l, s.assigned u = true)
    (hframe_k : ∀ s1, EvalFrame s1 (k s1).2)
    (hinv_k : ∀ s1, CacheInv g s1 → CacheInv g (k s1).2)
    (hok_k : ∀ s1, CacheInv g s1 → ∀ v, (k s1).1 = .ok v →
      ∀ u ∈ leafDeps g r, s1.assigned u = true) :
    CacheInv g (mk2 i f p k).2 ∧
      (∀ v, (mk2 i f p k).1 = .ok v → ∀ u ∈ leafDeps g i, s.assigned u = true) := by
  have hleaf : ∀ u ∈ leafDeps g i, u ∈ leafDeps g l ∨ u ∈ leafDeps g r := by
    intro u hu
    rcases (mem_leafDeps_comp hwf hg hnv u).1 hu with ⟨c, hc, hu'⟩
    rw [hops, List.mem_cons, List.mem_singleton] at hc
    rcases hc with rfl | rfl
    · left; exact hu'
    · right; exact hu'
  rcases p with ⟨rr, s1⟩
  cases rr with
  | error e => exact ⟨hinv, fun v hv => Except.noConfusion hv⟩
  | ok vl =>
    have hframe1 : EvalFrame s s1 := hframe
    have hinv1 : CacheInv g s1 := hinv
    have hinv2 : CacheInv g (k s1).2 := hinv_k s1 hinv1
    simp only [mk2]
    split
    · rename_i e s2 heq
      refine ⟨?_, fun v hv => Except.noConfusion hv⟩
      rw [show s2 = (k s1).2 from by rw [heq]]
      exact hinv2
    · rename_i vr s2 heq
      have hs2 : s2 = (k s1).2 := by rw [heq]
      have hokr : ∀ u ∈ leafDeps g r, s.assigned u = true := by
        intro u hu
        have := hok_k s1 hinv1 vr (by rw [heq]) u hu
        rwa [hframe1.2.1] at this
      have hassigned : ∀ u ∈ leafDeps g i, s.assigned u = true := by
        intro u hu
        rcases hleaf u hu with h | h
        · exact hok vl rfl u h
        · exact hokr u h
      refine ⟨?_, fun v' _ => hassigned⟩
      have hasg2 : s2.assigned = s.assigned := by
        rw [hs2, (hframe_k s1).2.1, hframe1.2.1]
      intro j hj hsome u hu
      show (setVal s2 i (f vl vr)).assigned u = true
      rw [setVal_assigned, hasg2]
      by_cases hji : j = i
      · subst hji
        exact hassigned u hu
      · rw [show (setVal s2 i (f vl vr)).val j = s2.val j from by
          rw [setVal_val, if_neg hji]] at hsome
        have := hinv2 j hj (by rwa [hs2] at hsome) u hu
        rw [(hframe_k s1).2.1, hframe1.2.1] at this
        exact this

/-- Evaluation preserves the cache invariant, and a successful evaluation
of node `i` certifies that all of `i`'s leaf dependencies were assigned. -/
theorem eval_inv {V : Type} (O : Ops V) {g : List (Node V)} (hwf : WF g) :
    ∀ fuel i s, CacheInv g s → CacheInv g (eval O g fuel i s).2 ∧
      (∀ v, (eval O g fuel i s).1 = .ok v →
        ∀ u ∈ leafDeps g i, s.assigned u = true) := by
  intro fuel
  induction fuel with
  | zero =>
    intro i s hinv
    exact ⟨hinv, fun v hv => Except.noConfusion hv⟩
  | succ fuel ih =>
    intro i s hinv
    rw [eval]
    split
    · rename_i v hv
      refine ⟨hinv, fun w hw u hu => ?_⟩
      by_cases hlen : i < g.length
      · exact hinv i hlen (by rw [hv]; rfl) u hu
      · rw [show leafDeps g i = [] from leafDeps_none
          (by rw [List.getElem?_eq_none]; omega)] at hu
        exact absurd hu (List.not_mem_nil u)
    rename_i hnone
    split
    · exact ⟨hinv, fun v hv => Except.noConfusion hv⟩
    · split <;> exact ⟨hinv, fun v hv => Except.noConfusion hv⟩
    · rename_i l r hg
      exact mk2_inv hwf hg (fun nm h => Node.noConfusion h) rfl
        (eval_frame O g fuel l s) (ih l s hinv).1 (ih l s hinv).2
        (fun s1 => eval_frame O g fuel r s1)
        (fun s1 h1 => (ih r s1 h1).1)
        (fun s1 h1 v hv => (ih r s1 h1).2 v hv)
    · rename_i a c hg
      exact mk1_inv hwf hg (fun nm h => Node.noConfusion h) rfl
        (eval_frame O g fuel a s) (ih a s hinv).1 (ih a s hinv).2
    · rename_i l r hg
      exact mk2_inv hwf hg (fun nm h => Node.noConfusion h) rfl
        (eval_frame O g fuel l s) (ih l s hinv).1 (ih l s hinv).2
        (fun s1 => eval_frame O g fuel r s1)
        (fun s1 h1 => (ih r s1 h1).1)
        (fun s1 h1 v hv => (ih r s1 h1).2 v hv)
    · rename_i a c hg
      exact mk1_inv hwf hg (fun nm h => Node.noConfusion h) rfl
        (eval_frame O g fuel a s) (ih a s hinv).1 (ih a s hinv).2
    · rename_i a p hg
      exact mk1_inv hwf hg (fun nm h => Node.noConfusion h) rfl
        (eval_frame O g fuel a s) (ih a s hinv).1 (ih a s hinv).2
    · rename_i a hg
      exact mk1_inv hwf hg (fun nm h => Node.noConfusion h) rfl
        (eval_frame O g fuel a s) (ih a s hinv).1 (ih a s hinv).2
    · rename_i a hg
      exact mk1_inv hwf hg (fun nm h => Node.noConfusion h) rfl
        (eval_frame O g fuel a s) (ih a s hinv).1 (ih a s hinv).2
    · rename_i a hg
      exact mk1_inv hwf hg (fun nm h => Node.noConfusion h) rfl
        (eval_frame O g fuel a s) (ih a s hinv).1 (ih a s hinv).2
-- Batch 5: frame properties of one backprop accumulation step

theorem stepFrame_refl {V : Type} (i : Nat) (s : State V) : StepFrame i s s :=
  ⟨rfl, rfl, fun _ _ h => h, fun _ _ h => h, fun _ _ _ => rfl⟩

theorem stepFrame_trans {V : Type} {i : Nat} {s1 s2 s3 : State V}
    (h1 : StepFrame i s1 s2) (h2 : StepFrame i s2 s3) : StepFrame i s1 s3 :=
  ⟨h2.1.trans h1.1, h2.2.1.trans h1.2.1,
    fun j w h => h2.2.2.1 j w (h1.2.2.1 j w h),
    fun j r h => h2.2.2.2.1 j r (h1.2.2.2.1 j r h),
    fun j r h => (h2.2.2.2.2 j r h).trans (h1.2.2.2.2 j r h)⟩

theorem stepFrame_addD {V : Type} (O : Ops V) {i c : Nat} (root : Nat) (x : V)
    (s : State V) (hci : c < i) : StepFrame i s (addD O s c root x) := by
  refine ⟨rfl, rfl, fun _ _ h => h, fun j r h => ?_, fun j r h => ?_⟩
  · rw [addD_dmap]
    by_cases hjc : j = c
    · subst hjc
      rw [if_pos rfl]
      by_cases hr : r = root
      · rw [if_pos hr]; rfl
      · rw [if_neg hr]; exact h
    · rw [if_neg hjc]; exact h
  · rw [addD_dmap, if_neg (by omega)]

theorem stepFrame_of_evalFrame {V : Type} {i : Nat} {s s' : State V}
    (h : EvalFrame s s') : StepFrame i s s' :=
  ⟨h.2.1, h.2.2.1, h.2.2.2, fun j r hh => by rw [h.1]; exact hh,
    fun j r _ => by rw [h.1]⟩

theorem evalThen_stepFrame {V : Type} {i : Nat} {s : State V}
    {p : Except Err V × State V} {k : V → State V → State V × Option Err}
    (hp : StepFrame i s p.2)
    (hk : ∀ v s1, StepFrame i s1 (k v s1).1) :
    StepFrame i s (evalThen p k).1 := by
  rcases p with ⟨r, s1⟩
  cases r with
  | error e => exact hp
  | ok v => exact stepFrame_trans hp (hk v s1)

/-- One `_deriv` step only adds to operand `_d` rows (all strictly below
`i`), grows `val` caches, and leaves flags and registry alone. -/
theorem derivStep_stepFrame {V : Type} (O : Ops V) {g : List (Node V)}
    (hwf : WF g) (fuel i root : Nat) (s : State V) :
    StepFrame i s (derivStep O g fuel i root s).1 := by
  have hef : ∀ c s', StepFrame i (s' : State V) (eval O g fuel c s').2 :=
    fun c s' => stepFrame_of_evalFrame (eval_frame O g fuel c s')
  unfold derivStep
  split
  · exact stepFrame_refl i s
  · exact stepFrame_refl i s
  · rename_i l r hg
    have hl : l < i := wf_operand_lt hwf hg (by simp [Node.operands])
    have hr : r < i := wf_operand_lt hwf hg (by simp [Node.operands])
    exact stepFrame_trans (stepFrame_addD O root _ s hl)
      (stepFrame_addD O root _ _ hr)
  · rename_i a c hg
    have ha : a < i := wf_operand_lt hwf hg (by simp [Node.operands])
    exact stepFrame_addD O root _ s ha
  · rename_i l r hg
    have hl : l < i := wf_operand_lt hwf hg (by simp [Node.operands])
    have hr : r < i := wf_operand_lt hwf hg (by simp [Node.operands])
    exact evalThen_stepFrame (hef r s) (fun vr s1 =>
      stepFrame_trans (stepFrame_addD O root _ s1 hl)
        (evalThen_stepFrame (hef l _) (fun vl s3 =>
          stepFrame_addD O root _ s3 hr)))
  · rename_i a c hg
    have ha : a < i := wf_operand_lt hwf hg (by simp [Node.operands])
    exact stepFrame_addD O root _ s ha
  · rename_i a p hg
    have ha : a < i := wf_operand_lt hwf hg (by simp [Node.operands])
    exact evalThen_stepFrame (hef a s) (fun v s1 => stepFrame_addD O root _ s1 ha)
  · rename_i a hg
    have ha : a < i := wf_operand_lt hwf hg (by simp [Node.operands])
    exact evalThen_stepFrame (hef i s) (fun v s1 => stepFrame_addD O root _ s1 ha)
  · rename_i a hg
    have ha : a < i := wf_operand_lt hwf hg (by simp [Node.operands])
    exact evalThen_stepFrame (hef a s) (fun v s1 => stepFrame_addD O root _ s1 ha)
  · rename_i a hg
    have ha : a < i := wf_operand_lt hwf hg (by simp [Node.operands])
    exact evalThen_stepFrame (hef i s) (fun v s1 => stepFrame_addD O root _ s1 ha)

/-- A `_deriv` step preserves the cache invariant (its `_d` writes do not
touch values or flags; its `val` forcings go through evaluation). -/
theorem derivStep_inv {V : Type} (O : Ops V) {g : List (Node V)} (hwf : WF g)
    (fuel i root : Nat) (s : State V) (hinv : CacheInv g s) :
    CacheInv g (derivStep O g fuel i root s).1 := by
  have hev : ∀ c (s' : State V), CacheInv g s' → CacheInv g (eval O g fuel c s').2 :=
    fun c s' h => (eval_inv O hwf fuel c s' h).1
  unfold derivStep
  split
  · exact hinv
  · exact hinv
  · exact fun j hj hs u hu => hinv j hj hs u hu
  · exact fun j hj hs u hu => hinv j hj hs u hu
  · rename_i l r hg
    rcases hp : eval O g fuel r s with ⟨rr, s1⟩
    have h1 : CacheInv g s1 := by
      have := hev r s hinv
      rwa [hp] at this
    cases rr with
    | error e => exact h1
    | ok vr =>
      show CacheInv g (evalThen (eval O g fuel l (addD O s1 l root _)) _).1
      rcases hq : eval O g fuel l (addD O s1 l root (O.mul (dget O s i root) vr)) with ⟨rr2, s3⟩
      have h2 : CacheInv g s3 := by
        have := hev l (addD O s1 l root (O.mul (dget O s i root) vr))
          (fun j hj hs u hu => h1 j hj hs u hu)
        rwa [hq] at this
      cases rr2 with
      | error e => exact h2
      | ok vl => exact fun j hj hs u hu => h2 j hj hs u hu
  · exact fun j hj hs u hu => hinv j hj hs u hu
  · rename_i a p hg
    rcases hp : eval O g fuel a s with ⟨rr, s1⟩
    have h1 : CacheInv g s1 := by
      have := hev a s hinv
      rwa [hp] at this
    cases rr with
    | error e => exact h1
    | ok v => exact fun j hj hs u hu => h1 j hj hs u hu
  · rename_i a hg
    rcases hp : eval O g fuel i s with ⟨rr, s1⟩
    have h1 : CacheInv g s1 := by
      have := hev i s hinv
      rwa [hp] at this
    cases rr with
    | error e => exact h1
    | ok v => exact fun j hj hs u hu => h1 j hj hs u hu
  · rename_i a hg
    rcases hp : eval O g fuel a s with ⟨rr, s1⟩
    have h1 : CacheInv g s1 := by
      have := hev a s hinv
      rwa [hp] at this
    cases rr with
    | error e => exact h1
    | ok v => exact fun j hj hs u hu => h1 j hj hs u hu
  · rename_i a hg
    rcases hp : eval O g fuel i s with ⟨rr, s1⟩
    have h1 : CacheInv g s1 := by
      have := hev i s hinv
      rwa [hp] at this
    cases rr with
    | error e => exact h1
    | ok v => exact fun j hj hs u hu => h1 j hj hs u hu
-- Batch 6: readiness and success of evaluation and accumulation

theorem ready_of_evalFrame {V : Type} {g : List (Node V)} {s s' : State V}
    (h : Ready g s) (hf : EvalFrame s s') : Ready g s' := by
  intro i hi u hu
  refine ⟨by rw [hf.2.1]; exact (h i hi u hu).1, ?_⟩
  obtain ⟨w, hw⟩ := Option.isSome_iff_exists.1 (h i hi u hu).2
  rw [hf.2.2.2 u w hw]
  rfl

theorem ready_of_stepFrame {V : Type} {g : List (Node V)} {i : Nat}
    {s s' : State V} (h : Ready g s) (hf : StepFrame i s s') : Ready g s' := by
  intro j hj u hu
  refine ⟨by rw [hf.1]; exact (h j hj u hu).1, ?_⟩
  obtain ⟨w, hw⟩ := Option.isSome_iff_exists.1 (h j hj u hu).2
  rw [hf.2.2.1 u w hw]
  rfl

/-- With every leaf dependency assigned, evaluation of any in-range node
succeeds (given fuel at least its construction index). -/
theorem eval_ok_of_ready {V : Type} (O : Ops V) {g : List (Node V)}
    (hwf : WF g) : ∀ i, i < g.length → ∀ fuel (s : State V), i + 1 ≤ fuel →
      Ready g s → ∃ v, (eval O g fuel i s).1 = Except.ok v := by
  intro i
  induction i using Nat.strong_induction_on with
  | _ i ih =>
    intro hi fuel s hfuel hready
    obtain ⟨f, rfl⟩ : ∃ f, fuel = f + 1 := ⟨fuel - 1, by omega⟩
    rw [eval]
    split
    · rename_i v hv
      exact ⟨v, rfl⟩
    rename_i hnone
    split
    · rename_i hgnone
      rw [List.getElem?_eq_getElem hi] at hgnone
      exact Option.noConfusion hgnone
    · rename_i nm hg
      have := (hready i hi i (by rw [leafDeps_var hg]; exact List.mem_singleton.2 rfl)).2
      rw [hnone] at this
      exact absurd this (by simp)
    · rename_i l r hg
      have hl : l < i := wf_operand_lt hwf hg (by simp [Node.operands])
      have hr : r < i := wf_operand_lt hwf hg (by simp [Node.operands])
      obtain ⟨vl, hvl⟩ := ih l hl (by omega) f s (by omega) hready
      rcases hp : eval O g f l s with ⟨r1, s1⟩
      rw [hp] at hvl
      have hr1 : r1 = .ok vl := hvl
      subst hr1
      have hready1 : Ready g s1 := by
        have := ready_of_evalFrame hready (eval_frame O g f l s)
        rwa [hp] at this
      obtain ⟨vr, hvr⟩ := ih r hr (by omega) f s1 (by omega) hready1
      rcases hq : eval O g f r s1 with ⟨r2, s2⟩
      rw [hq] at hvr
      have hr2 : r2 = .ok vr := hvr
      subst hr2
      simp only [mk2]
      rw [hq]
      exact ⟨O.add vl vr, rfl⟩
    · rename_i a c hg
      have ha : a < i := wf_operand_lt hwf hg (by simp [Node.operands])
      obtain ⟨v, hv⟩ := ih a ha (by omega) f s (by omega) hready
      rcases hp : eval O g f a s with ⟨r1, s1⟩
      rw [hp] at hv
      have hr1 : r1 = .ok v := hv
      subst hr1
      exact ⟨O.add v c, rfl⟩
    · rename_i l r hg
      have hl : l < i := wf_operand_lt hwf hg (by simp [Node.operands])
      have hr : r < i := wf_operand_lt hwf hg (by simp [Node.operands])
      obtain ⟨vl, hvl⟩ := ih l hl (by omega) f s (by omega) hready
      rcases hp : eval O g f l s with ⟨r1, s1⟩
      rw [hp] at hvl
      have hr1 : r1 = .ok vl := hvl
      subst hr1
      have hready1 : Ready g s1 := by
        have := ready_of_evalFrame hready (eval_frame O g f l s)
        rwa [hp] at this
      obtain ⟨vr, hvr⟩ := ih r hr (by omega) f s1 (by omega) hready1
      rcases hq : eval O g f r s1 with ⟨r2, s2⟩
      rw [hq] at hvr
      have hr2 : r2 = .ok vr := hvr
      subst hr2
      simp only [mk2]
      rw [hq]
      exact ⟨O.mul vl vr, rfl⟩
    · rename_i a c hg
      have ha : a < i := wf_operand_lt hwf hg (by simp [Node.operands])
      obtain ⟨v, hv⟩ := ih a ha (by omega) f s (by omega) hready
      rcases hp : eval O g f a s with ⟨r1, s1⟩
      rw [hp] at hv
      have hr1 : r1 = .ok v := hv
      subst hr1
      exact ⟨O.mul v c, rfl⟩
    · rename_i a p hg
      have ha : a < i := wf_operand_lt hwf hg (by simp [Node.operands])
      obtain ⟨v, hv⟩ := ih a ha (by omega) f s (by omega) hready
      rcases hp : eval O g f a s with ⟨r1, s1⟩
      rw [hp] at hv
      have hr1 : r1 = .ok v := hv
      subst hr1
      exact ⟨O.pow v p, rfl⟩
    · rename_i a hg
      have ha : a < i := wf_operand_lt hwf hg (by simp [Node.operands])
      obtain ⟨v, hv⟩ := ih a ha (by omega) f s (by omega) hready
      rcases hp : eval O g f a s with ⟨r1, s1⟩
      rw [hp] at hv
      have hr1 : r1 = .ok v := hv
      subst hr1
      exact ⟨O.exp v, rfl⟩
    · rename_i a hg
      have ha : a < i := wf_operand_lt hwf hg (by simp [Node.operands])
      obtain ⟨v, hv⟩ := ih a ha (by omega) f s (by omega) hready
      rcases hp : eval O g f a s with ⟨r1, s1⟩
      rw [hp] at hv
      have hr1 : r1 = .ok v := hv
      subst hr1
      exact ⟨O.ln v, rfl⟩
    · rename_i a hg
      have ha : a < i := wf_operand_lt hwf hg (by simp [Node.operands])
      obtain ⟨v, hv⟩ := ih a ha (by omega) f s (by omega) hready
      rcases hp : eval O g f a s with ⟨r1, s1⟩
      rw [hp] at hv
      have hr1 : r1 = .ok v := hv
      subst hr1
      exact ⟨O.div O.one (O.add O.one (O.exp (O.neg v))), rfl⟩
-- Batch 7: the accumulation loop, the Kahn order, and backprop results

theorem evalThen_none {V : Type} {p : Except Err V × State V}
    {k : V → State V → State V × Option Err}
    (hp : ∃ v, p.1 = Except.ok v)
    (hk : ∀ v, p.1 = Except.ok v → (k v p.2).2 = none) :
    (evalThen p k).2 = none := by
  rcases p with ⟨r, s1⟩
  obtain ⟨v, hv⟩ := hp
  have : r = .ok v := hv
  subst this
  exact hk v rfl

/-- Under full assignment and enough fuel, a `_deriv` step raises no
exception. -/
theorem derivStep_ok {V : Type} (O : Ops V) {g : List (Node V)} (hwf : WF g)
    (fuel i root : Nat) (s : State V) (hfuel : g.length ≤ fuel)
    (hready : Ready g s) : (derivStep O g fuel i root s).2 = none := by
  unfold derivStep
  split
  · rfl
  · rfl
  · rfl
  · rfl
  · rename_i l r hg
    have hilen : i < g.length := getElem?_lt_len hg
    have hl : l < i := wf_operand_lt hwf hg (by simp [Node.operands])
    have hr : r < i := wf_operand_lt hwf hg (by simp [Node.operands])
    apply evalThen_none (eval_ok_of_ready O hwf r (by omega) fuel s (by omega) hready)
    intro vr hvr
    have hready1 : Ready g (eval O g fuel r s).2 :=
      ready_of_evalFrame hready (eval_frame O g fuel r s)
    dsimp only
    apply evalThen_none (eval_ok_of_ready O hwf l (by omega) fuel
      (addD O (eval O g fuel r s).2 l root (O.mul (dget O s i root) vr)) (by omega)
      (fun j hj u hu => hready1 j hj u hu))
    intro vl hvl
    rfl
  · rfl
  · rename_i a p hg
    have hilen : i < g.length := getElem?_lt_len hg
    have ha : a < i := wf_operand_lt hwf hg (by simp [Node.operands])
    apply evalThen_none (eval_ok_of_ready O hwf a (by omega) fuel s (by omega) hready)
    intro v hv
    rfl
  · rename_i a hg
    have hilen : i < g.length := getElem?_lt_len hg
    apply evalThen_none (eval_ok_of_ready O hwf i hilen fuel s (by omega) hready)
    intro v hv
    rfl
  · rename_i a hg
    have hilen : i < g.length := getElem?_lt_len hg
    have ha : a < i := wf_operand_lt hwf hg (by simp [Node.operands])
    apply evalThen_none (eval_ok_of_ready O hwf a (by omega) fuel s (by omega) hready)
    intro v hv
    rfl
  · rename_i a hg
    have hilen : i < g.length := getElem?_lt_len hg
    apply evalThen_none (eval_ok_of_ready O hwf i hilen fuel s (by omega) hready)
    intro v hv
    rfl

/-- Under full assignment the whole accumulation loop raises no exception
and keeps the state fully assigned. -/
theorem derivLoop_none {V : Type} (O : Ops V) {g : List (Node V)} (hwf : WF g)
    (fuel root : Nat) : ∀ (order : List Nat) (s : State V), g.length ≤ fuel →
      Ready g s → (derivLoop O g fuel root order s).2 = none ∧
        Ready g (derivLoop O g fuel root order s).1 := by
  intro order
  induction order with
  | nil => intro s _ h; exact ⟨rfl, h⟩
  | cons i rest ih =>
    intro s hf h
    rw [derivLoop]
    rcases hstep : derivStep O g fuel i root s with ⟨s', e⟩
    have hnone : e = none := by
      have := derivStep_ok O hwf fuel i root s hf h
      rwa [hstep] at this
    subst hnone
    have hready' : Ready g s' := by
      have := ready_of_stepFrame h (derivStep_stepFrame O hwf fuel i root s)
      rwa [hstep] at this
    exact ih s' hf hready'

/-- Processing nodes that all lie at or below `root` never touches the
`_d` row of `root` itself. -/
theorem derivLoop_high {V : Type} (O : Ops V) {g : List (Node V)} (hwf : WF g)
    (fuel root : Nat) : ∀ (order : List Nat) (s : State V),
      (∀ x ∈ order, x ≤ root) → ∀ rr,
        ((derivLoop O g fuel root order s).1).dmap root rr = s.dmap root rr := by
  intro order
  induction order with
  | nil => intro s _ rr; rfl
  | cons i rest ih =>
    intro s ho rr
    rw [derivLoop]
    rcases hstep : derivStep O g fuel i root s with ⟨s', e⟩
    have hstepf : StepFrame i s s' := by
      have := derivStep_stepFrame O hwf fuel i root s
      rwa [hstep] at this
    have hrow : s'.dmap root rr = s.dmap root rr :=
      hstepf.2.2.2.2 root rr (ho i (List.mem_cons_self i rest))
    cases e with
    | some err => exact hrow
    | none =>
      rw [ih s' (fun x hx => ho x (List.mem_cons_of_mem i hx)) rr, hrow]

/-- `_d` entries present before the loop are still present afterwards. -/
theorem derivLoop_isSome {V : Type} (O : Ops V) {g : List (Node V)} (hwf : WF g)
    (fuel root : Nat) : ∀ (order : List Nat) (s : State V) (j r : Nat),
      (s.dmap j r).isSome = true →
      (((derivLoop O g fuel root order s).1).dmap j r).isSome = true := by
  intro order
  induction order with
  | nil => intro s j r h; exact h
  | cons i rest ih =>
    intro s j r h
    rw [derivLoop]
    rcases hstep : derivStep O g fuel i root s with ⟨s', e⟩
    have hstepf : StepFrame i s s' := by
      have := derivStep_stepFrame O hwf fuel i root s
      rwa [hstep] at this
    have h' : (s'.dmap j r).isSome = true := hstepf.2.2.2.1 j r h
    cases e with
    | some err => exact h'
    | none => exact ih s' j r h'

/-- The loop preserves the cache invariant. -/
theorem derivLoop_inv {V : Type} (O : Ops V) {g : List (Node V)} (hwf : WF g)
    (fuel root : Nat) : ∀ (order : List Nat) (s : State V), CacheInv g s →
      CacheInv g (derivLoop O g fuel root order s).1 := by
  intro order
  induction order with
  | nil => intro s h; exact h
  | cons i rest ih =>
    intro s h
    rw [derivLoop]
    rcases hstep : derivStep O g fuel i root s with ⟨s', e⟩
    have h' : CacheInv g s' := by
      have := derivStep_inv O hwf fuel i root s h
      rwa [hstep] at this
    cases e with
    | some err => exact h'
    | none => exact ih s' h'

theorem foldl_inv {α β : Type} (P : β → Prop) (f : β → α → β) :
    ∀ (l : List α), (∀ b a, a ∈ l → P b → P (f b a)) → ∀ b, P b → P (l.foldl f b) := by
  intro l
  induction l with
  | nil => intro _ b hb; exact hb
  | cons a l ihl =>
    intro h b hb
    rw [List.foldl_cons]
    exact ihl (fun b x hx hbb => h b x (List.mem_cons_of_mem a hx) hbb) _
      (h b a (List.mem_cons_self a l) hb)

/-- Every node the Kahn loop emits (or still holds on its frontier) lies
at or below the root and inside the graph: the frontier starts at the root
and only ever receives operands of frontier nodes. -/
theorem kahn_mem {V : Type} {g : List (Node V)} (hwf : WF g) (root : Nat) :
    ∀ fuel (free : List Nat) (inc : Nat → List Nat) (order : List Nat),
      (∀ x ∈ free, x ≤ root ∧ x < g.length) →
      (∀ x ∈ order, x ≤ root ∧ x < g.length) →
      ∀ x ∈ (kahn g fuel free inc order).1, x ≤ root ∧ x < g.length := by
  intro fuel
  induction fuel with
  | zero => intro free inc order hf ho x hx; exact ho x hx
  | succ fuel ih =>
    intro free inc order hf ho
    cases free with
    | nil => rw [kahn]; exact ho
    | cons curr rest =>
      rw [kahn]
      have hcurr := hf curr (List.mem_cons_self curr rest)
      have hfold : ∀ x ∈ ((nodeOps g curr).foldl (fun st nbr =>
          let l := (st.2 nbr).erase curr
          let inc' := fun j => if j = nbr then l else st.2 j
          if l.isEmpty then (nbr :: st.1, inc') else (st.1, inc'))
            (rest, inc)).1, x ≤ root ∧ x < g.length := by
        apply foldl_inv (fun (st : List Nat × (Nat → List Nat)) => ∀ x ∈ st.1, x ≤ root ∧ x < g.length)
        · intro st nbr hnbr hst
          have hnb : nbr < curr := by
            unfold nodeOps at hnbr
            rcases hgc : g[curr]? with _ | n
            · rw [hgc] at hnbr
              exact absurd hnbr (List.not_mem_nil nbr)
            · rw [hgc] at hnbr
              exact wf_operand_lt hwf hgc hnbr
          show ∀ x ∈ (if ((st.2 nbr).erase curr).isEmpty then
              (nbr :: st.1, fun j => if j = nbr then (st.2 nbr).erase curr else st.2 j)
            else (st.1, fun j => if j = nbr then (st.2 nbr).erase curr else st.2 j)).1,
            x ≤ root ∧ x < g.length
          split
          · intro x hx
            rcases List.mem_cons.1 hx with rfl | hx
            · exact ⟨by omega, by omega⟩
            · exact hst x hx
          · exact hst
        · intro x hx
          exact hf x (List.mem_cons_of_mem curr hx)
      refine ih _ _ _ hfold ?_
      intro x hx
      rcases List.mem_append.1 hx with hx | hx
      · exact ho x hx
      · rcases List.mem_singleton.1 hx with rfl
        exact hcurr

theorem backprop_shortcircuit {V : Type} (O : Ops V) (g : List (Node V))
    (fuel root : Nat) (s : State V) (h : (s.dmap root root).isSome = true) :
    backprop O g fuel root s = (s, none) := by
  unfold backprop
  rw [if_pos h]

/-- After any backprop call the root carries an entry for itself: either
the short-circuit found one, or the pass seeded `self._d[self] = 1` and
the loop only ever adds entries. -/
theorem backprop_root_isSome {V : Type} (O : Ops V) {g : List (Node V)}
    (hwf : WF g) (fuel root : Nat) (s : State V) :
    (((backprop O g fuel root s).1).dmap root root).isSome = true := by
  unfold backprop
  split
  · rename_i h
    exact h
  · apply derivLoop_isSome O hwf fuel root _ _ root root
    rw [setD_dmap, if_pos rfl, if_pos rfl]
    rfl

/-- A backprop pass from a root with no prior entry, on a fully assigned
graph with enough fuel, completes without error and stores
`root._d[root] = 1`, never touched again by the loop because the order
only contains nodes at or below the root and a step writes only strictly
lower rows. -/
theorem backprop_fresh {V : Type} (O : Ops V) {g : List (Node V)} (hwf : WF g)
    {fuel root : Nat} {s : State V} (hlen : root < g.length)
    (hfuel : g.length ≤ fuel) (hready : Ready g s)
    (hfresh : s.dmap root root = none) :
    (backprop O g fuel root s).2 = none ∧
      (((backprop O g fuel root s).1).dmap root root = some O.one) := by
  have hcond : ((s.dmap root root).isSome = true) = False := by
    rw [hfresh]; simp
  unfold backprop
  rw [if_neg (by rw [hfresh]; simp)]
  have horder : ∀ x ∈ (kahn g fuel [root]
      (dfsVisit g fuel [root] [] fun _ => []).1 []).1, x ≤ root ∧ x < g.length := by
    apply kahn_mem hwf root
    · intro x hx
      rcases List.mem_singleton.1 hx with rfl
      exact ⟨Nat.le_refl _, hlen⟩
    · intro x hx
      exact absurd hx (List.not_mem_nil x)
  have hready1 : Ready g (setD s root root O.one) :=
    fun j hj u hu => hready j hj u hu
  refine ⟨(derivLoop_none O hwf fuel root _ _ hfuel hready1).1, ?_⟩
  rw [derivLoop_high O hwf fuel root _ _ (fun x hx => (horder x hx).1) root]
  rw [setD_dmap, if_pos rfl, if_pos rfl]
-- Batch 8: bind, unbind and construction preserve the cache invariant

theorem mem_leafDeps_cases {V : Type} {g : List (Node V)} {j u : Nat}
    (hu : u ∈ leafDeps g j) :
    (∃ nm, g[j]? = some (.var nm) ∧ u = j) ∨ u ∈ varDeps g j := by
  unfold leafDeps at hu
  rcases hgj : g[j]? with _ | m
  · rw [hgj] at hu
    exact Or.inr hu
  · cases m
    case var nm =>
      rw [hgj] at hu
      have hu2 : u ∈ [j] := hu
      exact Or.inl ⟨nm, rfl, List.mem_singleton.1 hu2⟩
    all_goals rw [hgj] at hu
    all_goals exact Or.inr hu

theorem varSet_inv {V : Type} {g : List (Node V)} {s : State V}
    (hinv : CacheInv g s) (i : Nat) (v : V) :
    CacheInv g (varSet g i v s).1 := by
  unfold varSet
  split
  · rename_i nm hg
    split
    · exact hinv
    · intro j hj hsome u hu
      show (if u = i then true else s.assigned u) = true
      by_cases hui : u = i
      · rw [if_pos hui]
      · rw [if_neg hui]
        have hv : (if j = i then some v else s.val j).isSome = true := hsome
        by_cases hji : j = i
        · subst hji
          rw [leafDeps_var hg] at hu
          exact absurd (List.mem_singleton.1 hu) hui
        · rw [if_neg hji] at hv
          exact hinv j hj hv u hu
  · exact hinv
  · exact hinv

theorem unset_inv {V : Type} {g : List (Node V)} {s : State V}
    (hinv : CacheInv g s) (i : Nat) :
    CacheInv g (unset g i s).1 := by
  unfold unset
  split
  · rename_i nm hg
    split
    · exact hinv
    · rename_i hasg
      intro j hj hsome u hu
      have hv : (if j = i ∨ i ∈ varDeps g j then (none : Option V) else s.val j).isSome
          = true := hsome
      by_cases hcond : j = i ∨ i ∈ varDeps g j
      · rw [if_pos hcond] at hv
        exact absurd hv (by simp)
      · rw [if_neg hcond] at hv
        show (if u = i then false else s.assigned u) = true
        have hui : u ≠ i := by
          intro hui
          subst hui
          rcases mem_leafDeps_cases hu with ⟨nm2, hgj, hij⟩ | hmem
          · exact hcond (Or.inl hij.symm)
          · exact hcond (Or.inr hmem)
        rw [if_neg hui]
        exact hinv j hj hv u hu
  · intro j hj hsome u hu
    have hv : (if j = i then (none : Option V) else s.val j).isSome = true := hsome
    by_cases hji : j = i
    · rw [if_pos hji] at hv
      exact absurd hv (by simp)
    · rw [if_neg hji] at hv
      exact hinv j hj hv u hu
  · exact hinv

/-- On an assigned Variable, `unset` succeeds and produces exactly the
invalidated state. -/
theorem unset_var_eq {V : Type} {g : List (Node V)} {s : State V} {i : Nat}
    {nm : String} (hg : g[i]? = some (.var nm)) (hasg : s.assigned i = true) :
    unset g i s =
      ({ val := fun j => if j = i ∨ i ∈ varDeps g j then none else s.val j,
         dmap := fun j => if j = i ∨ i ∈ varDeps g j then (fun _ => none) else s.dmap j,
         assigned := fun j => if j = i then false else s.assigned j,
         reg := s.reg }, none) := by
  unfold unset
  rw [hg, hasg]
  rfl

/-- `Variable.unset` really clears its own assignment, cache and `_d`, and
the caches and `_d` of every expression in its dependent set. -/
theorem unset_clears {V : Type} {g : List (Node V)} {s : State V} {i : Nat}
    {nm : String} (hg : g[i]? = some (.var nm)) (hasg : s.assigned i = true) :
    (unset g i s).2 = none ∧
    (unset g i s).1.val i = none ∧ (unset g i s).1.assigned i = false ∧
      ∀ j, i ∈ varDeps g j → (unset g i s).1.val j = none ∧
        ∀ r, (unset g i s).1.dmap j r = none := by
  rw [unset_var_eq hg hasg]
  refine ⟨rfl, if_pos (Or.inl rfl), if_pos rfl, fun j hj => ?_⟩
  refine ⟨if_pos (Or.inr hj), fun r => ?_⟩
  show (if j = i ∨ i ∈ varDeps g j then (fun _ => none) else s.dmap j) r = none
  rw [if_pos (Or.inr hj)]

theorem varDepsF_append {V : Type} {g : List (Node V)} (hwf : WF g)
    (n : Node V) : ∀ i, i < g.length → ∀ fuel,
      varDepsF (g ++ [n]) fuel i = varDepsF g fuel i := by
  intro i
  induction i using Nat.strong_induction_on with
  | _ i ih =>
    intro hi fuel
    cases fuel with
    | zero => rfl
    | succ f =>
      rw [varDepsF, varDepsF, List.getElem?_append_left hi]
      cases hg : g[i]? with
      | none => rfl
      | some m =>
        refine foldl_ext' _ _ _ (fun b c hc => ?_) []
        have hci : c < i := wf_operand_lt hwf hg hc
        have hcl : c < g.length := by omega
        rw [List.getElem?_append_left hcl]
        cases hgc : g[c]? with
        | none =>
          show b ++ varDepsF (g ++ [n]) f c = b ++ varDepsF g f c
          rw [ih c hci hcl f]
        | some m2 =>
          cases m2
          case var nm => rfl
          all_goals show b ++ varDepsF (g ++ [n]) f c = b ++ varDepsF g f c
          all_goals rw [ih c hci hcl f]

theorem leafDeps_append {V : Type} {g : List (Node V)} (hwf : WF g)
    (n : Node V) {i : Nat} (hi : i < g.length) :
    leafDeps (g ++ [n]) i = leafDeps g i := by
  unfold leafDeps varDeps
  rw [List.getElem?_append_left hi, varDepsF_append hwf n i hi]

theorem mkNode_inv {V : Type} {g : List (Node V)} {s : State V}
    (hwf : WF g) (hinv : CacheInv g s) (n : Node V) {g' : List (Node V)}
    {s' : State V} (hmk : mkNode g n s = .ok (g', s'))
    (hfresh : s.val g.length = none) : CacheInv g' s' := by
  have hmain : ∀ (s2 : State V), s2.val = s.val → s2.assigned = s.assigned →
      CacheInv (g ++ [n]) s2 := by
    intro s2 hval hasg
    intro j hj hsome u hu
    by_cases hjl : j < g.length
    · rw [leafDeps_append hwf n hjl] at hu
      rw [hasg]
      exact hinv j hjl (by rw [← hval]; exact hsome) u hu
    · have hjeq : j = g.length := by
        rw [List.length_append] at hj
        simp at hj
        omega
      subst hjeq
      rw [hval, hfresh] at hsome
      exact absurd hsome (by simp)
  unfold mkNode at hmk
  cases n
  case var nm =>
    dsimp only at hmk
    cases hreg : s.reg nm with
    | some k =>
      rw [hreg] at hmk
      exact Except.noConfusion hmk
    | none =>
      rw [hreg] at hmk
      injection hmk with h2
      rw [Prod.mk.injEq] at h2
      obtain ⟨h3, h4⟩ := h2
      subst h3
      subst h4
      exact hmain _ rfl rfl
  all_goals (
    dsimp only at hmk
    injection hmk with h2
    rw [Prod.mk.injEq] at h2
    obtain ⟨h3, h4⟩ := h2
    subst h3
    subst h4
    exact hmain _ rfl rfl)

theorem backprop_inv {V : Type} (O : Ops V) {g : List (Node V)} (hwf : WF g)
    (fuel root : Nat) (s : State V) (hinv : CacheInv g s) :
    CacheInv g (backprop O g fuel root s).1 := by
  unfold backprop
  split
  · exact hinv
  · exact derivLoop_inv O hwf fuel root _ _
      (fun j hj hs u hu => hinv j hj hs u hu)
-- Batch 9: the scope guard releases every binding on every exit path

theorem exitAll_spec {V : Type} {g : List (Node V)} :
    ∀ (l : List (String × V)) (s : State V),
      (∀ nm i, s.reg nm = some i → g[i]? = some (.var nm)) →
      (l.map Prod.fst).Nodup →
      (∀ p ∈ l, ∃ i, s.reg p.1 = some i ∧ s.assigned i = true) →
      (exitAll g l s).2 = none ∧
      (exitAll g l s).1.reg = s.reg ∧
      (∀ j, (exitAll g l s).1.assigned j = true → s.assigned j = true) ∧
      (∀ j, s.val j = none → (exitAll g l s).1.val j = none) ∧
      (∀ j r, s.dmap j r = none → (exitAll g l s).1.dmap j r = none) ∧
      (∀ p ∈ l, ∀ i, s.reg p.1 = some i →
        (exitAll g l s).1.assigned i = false ∧ (exitAll g l s).1.val i = none ∧
        ∀ j, i ∈ varDeps g j → (exitAll g l s).1.val j = none ∧
          ∀ r, (exitAll g l s).1.dmap j r = none) := by
  intro l
  induction l with
  | nil =>
    intro s hreg hnodup hasg
    exact ⟨rfl, rfl, fun j h => h, fun j h => h, fun j r h => h,
      fun p hp => absurd hp (List.not_mem_nil p)⟩
  | cons q rest ih =>
    rcases q with ⟨nm, v⟩
    intro s hreg hnodup hasg
    obtain ⟨i, hri, hai⟩ := hasg (nm, v) (List.mem_cons_self _ _)
    have hgv : g[i]? = some (.var nm) := hreg nm i hri
    have hestep : exitAll g ((nm, v) :: rest) s = exitAll g rest
        ({ val := fun j => if j = i ∨ i ∈ varDeps g j then none else s.val j,
           dmap := fun j => if j = i ∨ i ∈ varDeps g j then (fun _ => none) else s.dmap j,
           assigned := fun j => if j = i then false else s.assigned j,
           reg := s.reg } : State V) := by
      rw [exitAll, hri]
      show (match unset g i s with
        | (s', some e) => (s', some e)
        | (s', none) => exitAll g rest s') = _
      rw [unset_var_eq hgv hai]
    rw [hestep]
    have hnmrest : nm ∉ rest.map Prod.fst := (List.nodup_cons.1 hnodup).1
    have hprest : ∀ p ∈ rest, p.1 ≠ nm := by
      intro p hp hpeq
      exact hnmrest (hpeq ▸ List.mem_map_of_mem Prod.fst hp)
    have hne : ∀ p ∈ rest, ∀ ip, s.reg p.1 = some ip → ip ≠ i := by
      intro p hp ip hrp hipi
      subst hipi
      have h1 := hreg p.1 ip hrp
      rw [hgv] at h1
      have h2 : (Node.var nm : Node V) = Node.var p.1 := by
        injection h1
      have h3 : nm = p.1 := by
        injection h2
      exact hprest p hp h3.symm
    obtain ⟨R1, R2, R3, R4, R5, R6⟩ := ih
      ({ val := fun j => if j = i ∨ i ∈ varDeps g j then none else s.val j,
         dmap := fun j => if j = i ∨ i ∈ varDeps g j then (fun _ => none) else s.dmap j,
         assigned := fun j => if j = i then false else s.assigned j,
         reg := s.reg } : State V)
      (fun nm2 i2 h => hreg nm2 i2 h)
      (List.nodup_cons.1 hnodup).2
      (by
        intro p hp
        obtain ⟨ip, hrp, hap⟩ := hasg p (List.mem_cons_of_mem _ hp)
        refine ⟨ip, hrp, ?_⟩
        show (if ip = i then false else s.assigned ip) = true
        rw [if_neg (hne p hp ip hrp)]
        exact hap)
    refine ⟨R1, R2, ?_, ?_, ?_, ?_⟩
    · intro j hj
      have h1 : (if j = i then false else s.assigned j) = true := R3 j hj
      by_cases hji : j = i
      · rw [if_pos hji] at h1
        exact absurd h1 (by simp)
      · rwa [if_neg hji] at h1
    · intro j hj
      apply R4
      show (if j = i ∨ i ∈ varDeps g j then none else s.val j) = none
      by_cases hcond : j = i ∨ i ∈ varDeps g j
      · rw [if_pos hcond]
      · rw [if_neg hcond]
        exact hj
    · intro j r hj
      apply R5
      show (if j = i ∨ i ∈ varDeps g j then (fun _ => none) else s.dmap j) r = none
      by_cases hcond : j = i ∨ i ∈ varDeps g j
      · rw [if_pos hcond]
      · rw [if_neg hcond]
        exact hj
    · intro p hp i2 hri2
      rcases List.mem_cons.1 hp with rfl | hp
      · have hii : i2 = i := by
          rw [hri] at hri2
          injection hri2 with h
          exact h.symm
        subst hii
        refine ⟨?_, ?_, ?_⟩
        · by_contra hcon
          simp only [Bool.not_eq_false] at hcon
          have h2 : (if i2 = i2 then false else s.assigned i2) = true := R3 i2 hcon
          rw [if_pos rfl] at h2
          exact absurd h2 (by simp)
        · apply R4
          show (if i2 = i2 ∨ i2 ∈ varDeps g i2 then none else s.val i2) = none
          rw [if_pos (Or.inl rfl)]
        · intro j hj
          refine ⟨?_, fun r => ?_⟩
          · apply R4
            show (if j = i2 ∨ i2 ∈ varDeps g j then none else s.val j) = none
            rw [if_pos (Or.inr hj)]
          · apply R5
            show (if j = i2 ∨ i2 ∈ varDeps g j then (fun _ => none) else s.dmap j) r = none
            rw [if_pos (Or.inr hj)]
      · exact R6 p hp i2 hri2
-- Batch 10: remaining claim theorems

/-! ### C3: the cache invariant is preserved by every operation -/

/-- C3: every engine operation — evaluation, backprop, `Variable.set`,
`unset`, and expression construction — preserves the invariant that a
node's `cached_value` is present only if all its transitive leaf Variables
are assigned, and `Variable.unset` clears the cache and `_d` of itself and
of every node in its (eagerly maintained) dependent set. -/
theorem c3_invariant_preservation {V : Type} (O : Ops V) {g : List (Node V)}
    {s : State V} (hwf : WF g) (hinv : CacheInv g s) :
    (∀ fuel i, CacheInv g (eval O g fuel i s).2) ∧
    (∀ fuel root, CacheInv g (backprop O g fuel root s).1) ∧
    (∀ i v, CacheInv g (varSet g i v s).1) ∧
    (∀ i, CacheInv g (unset g i s).1) ∧
    (∀ i nm, g[i]? = some (.var nm) → s.assigned i = true →
      (unset g i s).1.val i = none ∧ (unset g i s).1.assigned i = false ∧
      ∀ j, i ∈ varDeps g j → (unset g i s).1.val j = none ∧
        ∀ r, (unset g i s).1.dmap j r = none) ∧
    (∀ n g' s', mkNode g n s = .ok (g', s') → s.val g.length = none →
      CacheInv g' s') :=
  ⟨fun fuel i => (eval_inv O hwf fuel i s hinv).1,
   fun fuel root => backprop_inv O hwf fuel root s hinv,
   fun i v => varSet_inv hinv i v,
   fun i => unset_inv hinv i,
   fun i nm hg hasg => (unset_clears hg hasg).2,
   fun n g' s' hmk hfresh => mkNode_inv hwf hinv n hmk hfresh⟩

theorem c3_witness :
    CacheInv gC3 (eval intOps gC3 5 2 sC3).2 ∧
    CacheInv gC3 (backprop intOps gC3 9 2 sC3).1 ∧
    CacheInv gC3 (varSet gC3 1 (7 : ℤ) sC3).1 ∧
    CacheInv gC3 (unset gC3 0 sC3).1 :=
  ⟨(c3_invariant_preservation intOps (by decide) (by decide)).1 5 2,
   (c3_invariant_preservation intOps (by decide) (by decide)).2.1 9 2,
   (c3_invariant_preservation intOps (by decide) (by decide)).2.2.1 1 7,
   (c3_invariant_preservation intOps (by decide) (by decide)).2.2.2.1 0⟩

/-! ### C5: the scope guard releases every binding on every exit path -/

/-- C5: for a `with assign(...)` block whose enter succeeded, whatever the
body does (normal return or raise) as long as it leaves the bound
Variables assigned, the exit path unbinds every named Variable and each
unbind invalidates the caches and `_d` maps of all its dependent
expressions; the body's exception is then propagated. -/
theorem c5_scope_release {V : Type} {g : List (Node V)}
    {bindings : List (String × V)} {body : State V → State V × Bool}
    {s0 s1 s2 : State V} {raised : Bool}
    (hreg : ∀ nm i, s2.reg nm = some i → g[i]? = some (.var nm))
    (hnodup : (bindings.map Prod.fst).Nodup)
    (hasg : ∀ p ∈ bindings, ∃ i, s2.reg p.1 = some i ∧ s2.assigned i = true)
    (henter : enterAll g bindings s0 = (s1, none))
    (hbody : body s1 = (s2, raised)) :
    scopedRun g bindings body s0 =
      ((exitAll g bindings s2).1, if raised then some .bodyError else none) ∧
    (∀ p ∈ bindings, ∀ i, s2.reg p.1 = some i →
      (exitAll g bindings s2).1.assigned i = false ∧
      (exitAll g bindings s2).1.val i = none ∧
      ∀ j, i ∈ varDeps g j → (exitAll g bindings s2).1.val j = none ∧
        ∀ r, (exitAll g bindings s2).1.dmap j r = none) := by
  obtain ⟨E1, E2, E3, E4, E5, E6⟩ := exitAll_spec bindings s2 hreg hnodup hasg
  constructor
  · unfold scopedRun
    rw [henter]
    show (match exitAll g bindings (body s1).1 with
      | (s3, some e) => (s3, some e)
      | (s3, none) => (s3, if (body s1).2 then some Err.bodyError else none)) = _
    rw [hbody]
    show (match exitAll g bindings s2 with
      | (s3, some e) => (s3, some e)
      | (s3, none) => (s3, if raised then some Err.bodyError else none)) = _
    rcases hex : exitAll g bindings s2 with ⟨s3, e⟩
    have he : e = none := by rw [hex] at E1; exact E1
    subst he
    rfl
  · exact E6

theorem c5_witness :
    scopedRun gC5 bindC5 bodyC5 sC5 =
      ((exitAll gC5 bindC5 s1C5).1, some .bodyError) ∧
    (exitAll gC5 bindC5 s1C5).1.assigned 0 = false ∧
    (exitAll gC5 bindC5 s1C5).1.val 2 = none := by
  have hreg : ∀ nm i, s1C5.reg nm = some i → gC5[i]? = some (.var nm) := by
    intro nm i h
    have h2 : (if nm = "x" then some 0 else if nm = "y" then some 1 else none)
        = some i := h
    by_cases h1 : nm = "x"
    · rw [if_pos h1] at h2
      injection h2 with h4
      subst h1
      rw [← h4]
      rfl
    · rw [if_neg h1] at h2
      by_cases h3 : nm = "y"
      · rw [if_pos h3] at h2
        injection h2 with h4
        subst h3
        rw [← h4]
        rfl
      · rw [if_neg h3] at h2
        exact Option.noConfusion h2
  have hasg : ∀ p ∈ bindC5, ∃ i, s1C5.reg p.1 = some i ∧ s1C5.assigned i = true := by
    intro p hp
    rcases List.mem_cons.1 hp with rfl | hp
    · exact ⟨0, rfl, rfl⟩
    · rcases List.mem_singleton.1 hp with rfl
      exact ⟨1, rfl, rfl⟩
  have H := @c5_scope_release ℤ gC5 bindC5 bodyC5 sC5 s1C5 s1C5 true
    hreg (by decide) hasg rfl rfl
  refine ⟨H.1, ?_, ?_⟩
  · exact (H.2 ("x", 3) (by decide) 0 rfl).1
  · exact ((H.2 ("x", 3) (by decide) 0 rfl).2.2 2 (by decide)).1

/-! ### C6: the self-derivative is exactly one -/

/-- C6: for any expression node `root` of a well-formed graph whose leaf
Variables are all assigned (so the backprop pass completes), and with no
prior backprop entry at the root, reading `d(root, root)` succeeds and
returns exactly 1: the pass seeds `root._d[root] = 1` and the loop writes
only strictly lower rows. -/
theorem c6_self_derivative {V : Type} (O : Ops V) {g : List (Node V)}
    {fuel root : Nat} {s : State V} (hwf : WF g) (hlen : root < g.length)
    (hfuel : g.length ≤ fuel) (hready : Ready g s)
    (hfresh : s.dmap root root = none) :
    (derivRead O g fuel root root s).1 = .ok O.one := by
  obtain ⟨he, hd⟩ := backprop_fresh O hwf hlen hfuel hready hfresh
  unfold derivRead
  rcases hb : backprop O g fuel root s with ⟨s', e⟩
  rw [hb] at he hd
  have he' : e = none := he
  subst he'
  show (Except.ok (dget O s' root root) : Except Err V) = .ok O.one
  unfold dget
  rw [hd]
  rfl

theorem c6_witness : (derivRead intOps gC6 10 2 2 sC6).1 = .ok 1 :=
  c6_self_derivative intOps (by decide) (by decide) (by decide) (by decide) rfl

/-! ### C8: post-hoc derivative queries are memoized per root -/

/-- C8: after a successful read of `d(num, den1)` leaving state `s'`, a
second read `d(num, den2)` with the binding unchanged short-circuits on
the memoized `num._d[num]` entry, leaves the state exactly `s'`, and
returns the entry the first pass accumulated at `den2`. -/
theorem c8_posthoc_memoized {V : Type} (O : Ops V) {g : List (Node V)}
    {fuel num den1 den2 : Nat} {s s' : State V} {w : V} (hwf : WF g)
    (h : derivRead O g fuel num den1 s = (.ok w, s')) :
    derivRead O g fuel num den2 s' = (.ok (dget O s' den2 num), s') := by
  have hsome : (s'.dmap num num).isSome = true := by
    have hb := backprop_root_isSome O hwf fuel num s
    unfold derivRead at h
    rcases hbb : backprop O g fuel num s with ⟨sb, e⟩
    rw [hbb] at h hb
    cases e with
    | some err => exact Except.noConfusion (congrArg Prod.fst h)
    | none =>
      have hs : sb = s' := congrArg Prod.snd h
      rw [← hs]
      exact hb
  unfold derivRead
  rw [backprop_shortcircuit O g fuel num s' hsome]

theorem c8_witness :
    derivRead intOps gC8 10 2 1 sC8p = (.ok (dget intOps sC8p 1 2), sC8p) :=
  @c8_posthoc_memoized ℤ intOps gC8 10 2 0 1 sC8 sC8p 4 (by decide) (by rfl)

/-- C9: for every bound value `x > 0`, `value(exp(ln(x)))` evaluates to
exactly `x` in the real-number semantics. -/
theorem c9_exp_ln_roundtrip (x : ℝ) (hx : 0 < x) :
    (eval realOps gC9 10 2 (sC9 x)).1 = .ok x := by
  have h : (eval realOps gC9 10 2 (sC9 x)).1 = .ok (Real.exp (Real.log x)) := rfl
  rw [h, Real.exp_log hx]

theorem c9_witness : (0 : ℝ) < 1 ∧ (eval realOps gC9 10 2 (sC9 1)).1 = .ok 1 :=
  ⟨one_pos, c9_exp_ln_roundtrip 1 one_pos⟩

/-! ### C10: evaluation only writes reachable caches -/

/-- C10: any `value()` call (in particular every successful one) leaves
every node's `partial_derivatives`, every `assigned` flag, the registry
and every Variable's bound value unchanged, and changes `cached_value`
only at composite nodes reachable from the evaluated root. -/
theorem c10_value_frame {V : Type} (O : Ops V) (g : List (Node V))
    (fuel i : Nat) (s : State V) :
    (∀ j r, ((eval O g fuel i s).2).dmap j r = s.dmap j r) ∧
    (∀ j, ((eval O g fuel i s).2).assigned j = s.assigned j) ∧
    (∀ nm, ((eval O g fuel i s).2).reg nm = s.reg nm) ∧
    (∀ j nm, g[j]? = some (.var nm) → ((eval O g fuel i s).2).val j = s.val j) ∧
    (∀ j, ((eval O g fuel i s).2).val j ≠ s.val j → Reach g i j) := by
  have hf := eval_frame O g fuel i s
  have hw := eval_writes O g fuel i s
  refine ⟨fun j r => by rw [hf.1], fun j => by rw [hf.2.1],
    fun nm => by rw [hf.2.2.1], ?_, fun j hne => (hw j hne).1⟩
  intro j nm hj
  by_contra hne
  rcases hw j hne with ⟨hr, n, hn, hv⟩
  rw [hj] at hn
  injection hn with hn2
  exact hv nm hn2.symm

